import Mathlib

/-!
# NetAuth: the patch engines, two entity hooks, the client and the CLI helpers

A shallow embedding of `internal/tree/util/util.go` (`PatchKeyValueSlice`,
`PatchStringSlice`, `DedupStringSlice`), of the entity hooks
`create-entity-if-missing` and `validate-entity-secret`, of the client methods
`ManageCapabilities` and `ModifyGroupExpansions`, of the command line helpers
`token` and `kvArgs`, and of the test helper `slicesAreEqual`, followed by the
properties proved about them.

Conventions of the embedding

* A Go `string` is the list of its characters.  Go compares strings byte by
  byte; on UTF-8 text that is the comparison by code point used here.
* A Go `[]string` is a `List GoString`.  Where the code writes through a
  slice that aliases the caller's slice, the embedding returns the caller's
  slice after the call next to the returned value.
* The library functions the code calls (`strings.Split`, `strings.ToUpper`,
  `strings.Contains`, `regexp.ReplaceAllString` for the one pattern used,
  `sort.Strings`, `sort.Slice`, `proto.Merge`, `status.Code`) are embedded by
  what they compute.
* A collaborator behind an interface (storage, RPC stub, token cache) is a
  record of functions over a state: a call receives the state and returns its
  Go results and the state it leaves.
-/

namespace NetAuth

/-! ## Strings -/

/-- A Go string, as the list of its characters. -/
abbrev GoString := List Char

/-- Go's `a <= b` on strings: lexicographic, a proper prefix comes first. -/
def strLe : GoString → GoString → Bool
  | [], _ => true
  | _ :: _, [] => false
  | a :: as, b :: bs =>
    if a.toNat < b.toNat then true
    else if b.toNat < a.toNat then false
    else strLe as bs

/-- The order `sort.Strings` sorts by, as a relation. -/
def StrLE (a b : GoString) : Prop := strLe a b = true

instance instDecidableRelStrLE : DecidableRel StrLE :=
  fun a b => inferInstanceAs (Decidable (strLe a b = true))

/-- `sort.Strings`: the ascending arrangement of the slice.  The order is total
and antisymmetric, so every sorting algorithm produces this same list; it is
computed here by insertion. -/
def sortStrings (l : List GoString) : List GoString := List.insertionSort StrLE l

/-- `strings.Split(s, sep)` for a separator of one character: the pieces of `s`
between the occurrences of `sep`; always at least one piece. -/
def Split (s : GoString) (sep : Char) : List GoString :=
  match s with
  | [] => [[]]
  | c :: cs =>
    if c = sep then [] :: Split cs sep
    else
      match Split cs sep with
      | [] => [[c]]
      | p :: ps => (c :: p) :: ps

/-- The expression `strings.Split(s, ":")[0]`. -/
def parts0 (s : GoString) : GoString := (Split s ':').headD []

/-- `fmt.Sprintf("%s:%s", key, value)`. -/
def sprintfKV (key value : GoString) : GoString := key ++ ':' :: value

/-- `unicode.ToUpper` as far as the mode names can tell: ASCII letters, and the
two characters outside ASCII whose upper case is an ASCII letter (U+0131 to `I`,
U+017F to `S`).  Every other character has an upper case outside ASCII and is
kept as it is; the result is only ever compared with ASCII mode names. -/
def toUpperRune (c : Char) : Char :=
  if 97 ≤ c.toNat ∧ c.toNat ≤ 122 then Char.ofNat (c.toNat - 32)
  else if c.toNat = 0x131 then 'I'
  else if c.toNat = 0x17F then 'S'
  else c

/-- `strings.ToUpper`. -/
def ToUpper (s : GoString) : GoString := s.map toUpperRune

/-! ## The pattern `{\d+}$` -/

/-- The class `\d` of Go's regexp: the ASCII digits. -/
def isDigit (c : Char) : Bool := decide (48 ≤ c.toNat) && decide (c.toNat ≤ 57)

/-- Does the text match `\d*}` up to its very end? -/
def matchDigitsClose : GoString → Bool
  | [] => false
  | c :: cs => if isDigit c then matchDigitsClose cs else decide (c = '}') && cs.isEmpty

/-- Does a match of `{\d+}$` start at the head of the text?  Because of the
anchor `$` such a match is the whole text. -/
def matchOrdinalHere : GoString → Bool
  | c :: d :: rest => decide (c = '{') && isDigit d && matchDigitsClose rest
  | _ => false

/-- The call `re.ReplaceAllString(s, "")` for `re = {\d+}$`: the text is scanned
from the left; the leftmost place where the pattern matches is deleted up to
the end of the match, which is the end of the text. -/
def stripOrdinal : GoString → GoString
  | [] => []
  | c :: cs => if matchOrdinalHere (c :: cs) then [] else c :: stripOrdinal cs

/-! ## Go maps and `DedupStringSlice` -/

/-- A `map[string]int`, as the list of its entries in the order the keys were
first inserted. -/
abbrev GoMap := List (GoString × Nat)

/-- The statement `m[s]++`. -/
def GoMap.incr : GoMap → GoString → GoMap
  | [], s => [(s, 1)]
  | (k, n) :: rest, s => if k = s then (k, n + 1) :: rest else (k, n) :: GoMap.incr rest s

/-- The order in which `for k := range m` visits the keys of a map is left
open by Go.  A `RangeOrder` is one choice of it: some rearrangement of the keys,
each visited once. -/
structure RangeOrder where
  /-- The keys in the order they are visited. -/
  visit : List GoString → List GoString
  /-- Every key is visited exactly once. -/
  visit_perm : ∀ ks, List.Perm (visit ks) ks

/-- The range order that visits the keys in the order of insertion. -/
def RangeOrder.insertion : RangeOrder := ⟨id, fun _ => List.Perm.refl _⟩

/-- The range order that visits the keys last inserted first. -/
def RangeOrder.reversed : RangeOrder := ⟨List.reverse, fun ks => List.reverse_perm ks⟩

/-- The first loop of `DedupStringSlice`: count every non-empty string. -/
def dedupCount (list : List GoString) : GoMap :=
  list.foldl (fun tmp s => if s.length = 0 then tmp else tmp.incr s) []

/-- `DedupStringSlice`: into a map and back out of it. -/
def DedupStringSlice (ord : RangeOrder) (list : List GoString) : List GoString :=
  ord.visit ((dedupCount list).map Prod.fst)

/-! ## `PatchKeyValueSlice` -/

/-- What a call of `PatchKeyValueSlice` leaves behind. -/
structure PatchResult where
  /-- The slice the function returns. -/
  ret : List GoString
  /-- The caller's slice after the call. -/
  slice : List GoString
  deriving DecidableEq, Repr

/-- One turn of the UPSERT loop on the state `(newSlice, inserted)`. -/
def upsertStep (key value : GoString) (st : List GoString × Bool) (s : GoString) :
    List GoString × Bool :=
  if parts0 s = key then (st.1 ++ [sprintfKV key value], true)
  else (st.1 ++ [s], st.2)

/-- One turn of the CLEARFUZZY loop. -/
def clearFuzzyStep (strippedK : GoString) (newSlice : List GoString) (kv : GoString) :
    List GoString :=
  if stripOrdinal (parts0 kv) ≠ strippedK then newSlice ++ [kv] else newSlice

/-- One turn of the CLEAREXACT loop. -/
def clearExactStep (key : GoString) (newSlice : List GoString) (kv : GoString) :
    List GoString :=
  if parts0 kv ≠ key then newSlice ++ [kv] else newSlice

/-- One turn of the READ loop. -/
def readStep (strippedK : GoString) (out : List GoString) (kv : GoString) : List GoString :=
  if stripOrdinal (parts0 kv) = strippedK then out ++ [kv] else out

/-- `PatchKeyValueSlice(slice, mode, key, value)`. -/
def PatchKeyValueSlice (ord : RangeOrder) (slice : List GoString)
    (mode key value : GoString) : PatchResult :=
  let mode := ToUpper mode
  if mode = "UPSERT".toList then
    let st := slice.foldl (upsertStep key value) ([], false)
    let newSlice := if !st.2 then st.1 ++ [sprintfKV key value] else st.1
    let newSlice := DedupStringSlice ord newSlice
    ⟨sortStrings newSlice, slice⟩
  else if mode = "CLEARFUZZY".toList then
    let strippedK := stripOrdinal key
    let newSlice := slice.foldl (clearFuzzyStep strippedK) []
    let newSlice := DedupStringSlice ord newSlice
    ⟨sortStrings newSlice, slice⟩
  else if mode = "CLEAREXACT".toList then
    let newSlice := slice.foldl (clearExactStep key) []
    let newSlice := DedupStringSlice ord newSlice
    ⟨sortStrings newSlice, slice⟩
  else if mode = "READ".toList then
    if key = "*".toList then
      -- `out = slice; sort.Strings(out)` sorts the caller's slice in place
      ⟨sortStrings slice, sortStrings slice⟩
    else
      let strippedK := stripOrdinal key
      let out := slice.foldl (readStep strippedK) []
      ⟨sortStrings out, slice⟩
  else
    ⟨slice, slice⟩

/-- The slice the UPSERT branch hands to `DedupStringSlice`. -/
def upsertList (slice : List GoString) (key value : GoString) : List GoString :=
  let st := slice.foldl (upsertStep key value) ([], false)
  if !st.2 then st.1 ++ [sprintfKV key value] else st.1

/-! ## Notions of the specification -/

/-- The key of an entry: the text before its first `:`, and the whole entry when
it has none. -/
def keyOf (entry : GoString) : GoString := entry.takeWhile (fun c => c != ':')

/-- The key `k` is `p` followed by an ordinal marker `{N}`, where `N` is one or
more digits. -/
def HasOrdinal (k p : GoString) : Prop :=
  ∃ ds : GoString, ds ≠ [] ∧ (∀ d ∈ ds, isDigit d = true) ∧ k = p ++ '{' :: (ds ++ ['}'])

/-- The key `k'` is `k` with one trailing ordinal marker removed; it is `k` itself
when `k` ends in no ordinal marker. -/
def StripsTo (k k' : GoString) : Prop :=
  HasOrdinal k k' ∨ (k' = k ∧ ∀ p, ¬ HasOrdinal k p)

/-- Two keys match fuzzily: they are the same once one trailing ordinal marker
is removed from each. -/
def FuzzyEq (a b : GoString) : Prop := ∃ c, StripsTo a c ∧ StripsTo b c

/-! ## Entities and the entity hooks -/

/-- A Go `error` as the hooks see it.  `db.ErrUnknownEntity` is the sentinel the
hook compares with; every other error is told apart by its text. -/
inductive GoError where
  | ErrUnknownEntity
  | other (msg : GoString)
  deriving DecidableEq, Repr

/-- Modelled from the spec: the message type `pb.EntityMeta` is declared in the
protocol package, outside this repository.  The fields are the ones the
repository reads (`printEntity`, the hook tests) and the key/value metadata of
the data model; an optional field is `none` when it is not set. -/
structure EntityMeta where
  PrimaryGroup : Option GoString := none
  GECOS : Option GoString := none
  LegalName : Option GoString := none
  DisplayName : Option GoString := none
  Home : Option GoString := none
  Shell : Option GoString := none
  GraphicalShell : Option GoString := none
  BadgeNumber : Option GoString := none
  Locked : Option Bool := none
  Capabilities : List Int := []
  Keys : List GoString := []
  UntypedMeta : List GoString := []
  deriving DecidableEq, Repr

/-- Modelled from the spec: the message type `pb.Entity` is declared in the
protocol package, outside this repository: identifier, numeric id, secret and
metadata, each optional as the code's `ID: proto.String(..)`, `de.ID` and
`entity.Meta != nil` show. -/
structure Entity where
  ID : Option GoString := none
  Number : Option Int := none
  Secret : Option GoString := none
  Meta : Option EntityMeta := none
  deriving DecidableEq, Repr

/-- The generated getter `GetID`: the identifier, `""` when it is not set. -/
def Entity.GetID (m : Entity) : GoString := m.ID.getD []

/-- The generated getter `GetSecret`: the secret, `""` when it is not set. -/
def Entity.GetSecret (m : Entity) : GoString := m.Secret.getD []

/-- `proto.Merge` on one optional field: a field set in `src` replaces the one
in `dst`, a field not set in `src` leaves `dst` alone. -/
def mergeField {α : Type} (dst src : Option α) : Option α :=
  match src with
  | some v => some v
  | none => dst

/-- `proto.Merge` on the metadata message: optional fields as `mergeField`,
repeated fields appended. -/
def mergeMeta (dst src : EntityMeta) : EntityMeta :=
  { PrimaryGroup := mergeField dst.PrimaryGroup src.PrimaryGroup
    GECOS := mergeField dst.GECOS src.GECOS
    LegalName := mergeField dst.LegalName src.LegalName
    DisplayName := mergeField dst.DisplayName src.DisplayName
    Home := mergeField dst.Home src.Home
    Shell := mergeField dst.Shell src.Shell
    GraphicalShell := mergeField dst.GraphicalShell src.GraphicalShell
    BadgeNumber := mergeField dst.BadgeNumber src.BadgeNumber
    Locked := mergeField dst.Locked src.Locked
    Capabilities := dst.Capabilities ++ src.Capabilities
    Keys := dst.Keys ++ src.Keys
    UntypedMeta := dst.UntypedMeta ++ src.UntypedMeta }

/-- `proto.Merge(dst, src)` on entities; `src` is `none` for a nil pointer, from
which nothing is merged.  A message field set in `src` is merged into the one of
`dst`, which is created empty when `dst` has none. -/
def protoMerge (dst : Entity) (src : Option Entity) : Entity :=
  match src with
  | none => dst
  | some s =>
    { ID := mergeField dst.ID s.ID
      Number := mergeField dst.Number s.Number
      Secret := mergeField dst.Secret s.Secret
      Meta :=
        match s.Meta with
        | none => dst.Meta
        | some sm => some (mergeMeta (dst.Meta.getD {}) sm) }

/-- The entity methods of the interface `tree.DB` (type.go) over a storage `σ`:
a method receives the storage and returns its Go results and the storage it
leaves behind. -/
structure DB (σ : Type) where
  LoadEntity : σ → GoString → (Option Entity × Option GoError) × σ
  SaveEntity : σ → Entity → Option GoError × σ
  DeleteEntity : σ → GoString → Option GoError × σ

/-- What a call of a hook's `Run(e, de)` leaves behind: the returned error
(`none` for nil) and the two records after the call. -/
structure HookResult where
  err : Option GoError
  e : Entity
  de : Entity
  deriving DecidableEq, Repr

/-- `CreateEntityIfMissing.Run(e, de)` on the storage `st`; the second component
is the storage after the call. -/
def CreateEntityIfMissing.Run {σ : Type} (c : DB σ) (st : σ) (e de : Entity) :
    HookResult × σ :=
  let loaded := c.LoadEntity st de.GetID
  let le := loaded.1.1
  let err := loaded.1.2
  match err with
  | none => (⟨err, protoMerge e le, de⟩, loaded.2)
  | some GoError.ErrUnknownEntity =>
    let ce : Entity := { ID := de.ID }
    (⟨none, protoMerge e (some ce), de⟩, loaded.2)
  | some _ => (⟨err, e, de⟩, loaded.2)

/-- `ValidateEntitySecret.Run(e, de)`; `VerifySecret` is the method of the crypto
engine the hook embeds. -/
def ValidateEntitySecret.Run (VerifySecret : GoString → GoString → Option GoError)
    (e de : Entity) : HookResult :=
  ⟨VerifySecret de.GetSecret e.GetSecret, e, de⟩

/-- A storage for the examples: the list of the saved entities.  Loading looks
the identifier up and leaves the storage alone; an entity that is not there is
reported as `ErrUnknownEntity`. -/
def listDB : DB (List Entity) where
  LoadEntity st id :=
    match st.find? (fun x => decide (x.GetID = id)) with
    | some x => ((some x, none), st)
    | none => ((none, some GoError.ErrUnknownEntity), st)
  SaveEntity st x := (none, x :: st.filter (fun y => decide (y.GetID ≠ x.GetID)))
  DeleteEntity st id := (none, st.filter (fun y => decide (y.GetID ≠ id)))

/-- A storage whose every load fails with an input/output error. -/
def brokenDB : DB Unit where
  LoadEntity st _ := ((none, some (GoError.other "disk".toList)), st)
  SaveEntity st _ := (some (GoError.other "disk".toList), st)
  DeleteEntity st _ := (some (GoError.other "disk".toList), st)

/-- A crypto engine for the examples: the stored copy is the secret itself. -/
def plainVerifySecret (candidate stored : GoString) : Option GoError :=
  if candidate = stored then none else some (GoError.other "verification failed".toList)

/-! ## `PatchStringSlice` -/

/-- `strings.Contains(s, substr)`: does `substr` occur in `s` as a run of
consecutive characters?  The empty string occurs in every string. -/
def Contains : GoString → GoString → Bool
  | [], substr => substr.isEmpty
  | c :: cs, substr => substr.isPrefixOf (c :: cs) || Contains cs substr

/-- `stringMatcher(test, match, matchExact)`. -/
def stringMatcher (test mtch : GoString) (matchExact : Bool) : Bool :=
  if matchExact then decide (test = mtch) else Contains test mtch

/-- One turn of the loop of `PatchStringSlice` on the state `(retSlice, inserted)`. -/
def patchStep (patch : GoString) (insert matchExact : Bool) (st : List GoString × Bool)
    (s : GoString) : List GoString × Bool :=
  let matched := stringMatcher s patch matchExact
  if matched && !insert then st
  else if matched && insert then (st.1 ++ [s], true)
  else (st.1 ++ [s], st.2)

/-- The slice `PatchStringSlice` hands to `DedupStringSlice`. -/
def patchList (inp : List GoString) (patch : GoString) (insert matchExact : Bool) :
    List GoString :=
  let st := inp.foldl (patchStep patch insert matchExact) ([], false)
  if !st.2 && insert then st.1 ++ [patch] else st.1

/-- `PatchStringSlice(in, patch, insert, matchExact)`. -/
def PatchStringSlice (ord : RangeOrder) (inp : List GoString) (patch : GoString)
    (insert matchExact : Bool) : List GoString :=
  DedupStringSlice ord (patchList inp patch insert matchExact)

/-! ## The test helper `slicesAreEqual` -/

/-- What a call of `slicesAreEqual` leaves behind: the returned value and the
two slices of the caller, which the function sorts in place. -/
structure SlicesAreEqualResult where
  ret : Bool
  left : List GoString
  right : List GoString
  deriving DecidableEq, Repr

/-- The loop `for i, v := range left { if v != right[i] { return false } }` and
the `return true` after it.  The index `right[i]` is in range because the
lengths are equal when the loop is reached. -/
def slicesAreEqualLoop : List GoString → List GoString → Bool
  | [], _ => true
  | _ :: _, [] => false
  | v :: left, r :: right => if v ≠ r then false else slicesAreEqualLoop left right

/-- `slicesAreEqual(left, right)`.  `sort.Slice` with the comparison
`left[i] < left[j]` leaves the slice in ascending order, the arrangement
`sortStrings` computes. -/
def slicesAreEqual (left right : List GoString) : SlicesAreEqualResult :=
  if left.length ≠ right.length then ⟨false, left, right⟩
  else
    let left := sortStrings left
    let right := sortStrings right
    ⟨slicesAreEqualLoop left right, left, right⟩

/-! ## The helpers of the command line tool -/

/-- `kvArgs(cmd, args)`; the command is not used.  The error is `none` for nil. -/
def kvArgs (args : List GoString) : Option GoError :=
  if args.length < 3 then
    some (GoError.other "This command takes at least 3 arguments".toList)
  else
    let action := ToUpper (args.getD 1 [])
    if action = "UPSERT".toList ∧ args.length ≠ 4 then
      some (GoError.other "Upsert requires a key and a value".toList)
    else if action = "UPSERT".toList then none
    else if action = "CLEARFUZZY".toList then none
    else if action = "CLEAREXACT".toList then none
    else if action = "READ".toList then none
    else
      some (GoError.other
        "Action must be one of UPSERT, CLEARFUZZY, CLEAREXACT, or READ".toList)

/-- An error as the token helpers see it: `netauth.ErrNoCachedToken` is the
sentinel `token` compares with. -/
inductive CliError where
  | ErrNoCachedToken
  | other (msg : GoString)
  deriving DecidableEq, Repr

/-- How a call in the command line tool ends: it returns a value, or the
process is ended by `os.Exit(code)`. -/
inductive Ending (α : Type) where
  | returned (v : α)
  | exited (code : Nat)
  deriving DecidableEq, Repr

/-- What the token helpers call, over a state `σ` of the world outside (token
cache, server, clock, terminal): the configured `entity` and `secret`
(`viper.GetString`), the prompt `speakeasy.Ask`, and the methods of `rpc`.  A
call receives the state and returns its Go results and the state it leaves. -/
structure CliEnv (σ : Type) where
  entity : GoString
  secret : GoString
  Ask : σ → GoString → (GoString × Option CliError) × σ
  GetToken : σ → GoString → (GoString × Option CliError) × σ
  Validate : σ → GoString → Option CliError × σ
  AuthGetToken : σ → GoString → GoString → (GoString × Option CliError) × σ
  PutToken : σ → GoString → GoString → Option CliError × σ

/-- `getSecret(prompt)`; an error of the prompt is printed and not returned. -/
def getSecret {σ : Type} (env : CliEnv σ) (st : σ) (prompt : GoString) : GoString × σ :=
  let prompt := if prompt = [] then "Secret: ".toList else prompt
  if env.secret ≠ [] then (env.secret, st)
  else
    let asked := env.Ask st prompt
    (asked.1.1, asked.2)

/-- `tokenIsExpired(t)`. -/
def tokenIsExpired {σ : Type} (env : CliEnv σ) (st : σ) (t : GoString) : Bool × σ :=
  let validated := env.Validate st t
  (decide (validated.1 ≠ none), validated.2)

/-- `refreshToken()`. -/
def refreshToken {σ : Type} (env : CliEnv σ) (st : σ) : Ending GoString × σ :=
  let secret := getSecret env st []
  let got := env.AuthGetToken secret.2 env.entity secret.1
  let t := got.1.1
  if got.1.2 ≠ none then (Ending.exited 1, got.2)
  else
    let put := env.PutToken got.2 env.entity t
    if put.1 ≠ none then (Ending.exited 2, put.2)
    else (Ending.returned t, put.2)

/-- `token()`.  The cases of the `switch` are tried from the top, so the third
case validates the token a second time. -/
def token {σ : Type} (env : CliEnv σ) (st : σ) : Ending GoString × σ :=
  let got := env.GetToken st env.entity
  let t := got.1.1
  let err := got.1.2
  if err = some CliError.ErrNoCachedToken then refreshToken env got.2
  else
    let first := tokenIsExpired env got.2 t
    if first.1 then refreshToken env first.2
    else
      let second := tokenIsExpired env first.2 t
      if !second.1 && decide (err = none) then (Ending.returned t, second.2)
      else (Ending.returned [], second.2)

/-- A world for the examples, whose state counts the validations made: the
cache holds the token `tok`, which is valid at the first validation and has
expired at every later one; a fresh token `fresh` can always be issued. -/
def expiringEnv : CliEnv Nat where
  entity := "root".toList
  secret := "pw".toList
  Ask st _ := (("pw".toList, none), st)
  GetToken st _ := (("tok".toList, none), st)
  Validate st _ :=
    if st = 0 then (none, st + 1) else (some (CliError.other "expired".toList), st + 1)
  AuthGetToken st _ _ := (("fresh".toList, none), st)
  PutToken st _ _ := (none, st)

/-- A world for the examples: the cache hands out the token `tok` together with
an error that is not `ErrNoCachedToken`, and every validation succeeds. -/
def staleCacheEnv : CliEnv Unit where
  entity := "root".toList
  secret := "pw".toList
  Ask st _ := (("pw".toList, none), st)
  GetToken st _ := (("tok".toList, some (CliError.other "cache unreadable".toList)), st)
  Validate st _ := (none, st)
  AuthGetToken st _ _ := (("fresh".toList, none), st)
  PutToken st _ _ := (none, st)

/-! ## The client -/

/-- An error as the client returns it: the sentinel `tree.UnknownCapability`, or
an error of the RPC layer, which carries a status code. -/
inductive ClientError where
  | UnknownCapability
  | rpc (code : Nat) (msg : GoString)
  deriving DecidableEq, Repr

/-- `status.Code(err)`: `codes.OK`, which is 0, for nil; the code an RPC error
carries; `codes.Unknown`, which is 2, for an error that is no RPC status. -/
def statusCode : Option ClientError → Nat
  | none => 0
  | some (ClientError.rpc code _) => code
  | some ClientError.UnknownCapability => 2

/-- Modelled from the spec: the message type `pb.Group` is declared in the
protocol package, outside this repository; the fields are the ones `printGroup`
reads. -/
structure Group where
  Name : Option GoString := none
  DisplayName : Option GoString := none
  Number : Option Int := none
  ManagedBy : Option GoString := none
  Capabilities : List Int := []
  Expansions : List GoString := []
  deriving DecidableEq, Repr

/-- Modelled from the spec: `pb.ClientInfo`, declared in the protocol package;
the two fields every request of the client fills in. -/
structure ClientInfo where
  ID : Option GoString := none
  Service : Option GoString := none
  deriving DecidableEq, Repr

/-- Modelled from the spec: `pb.SimpleResult`, declared in the protocol package:
the success flag and message a mutating call answers with. -/
structure SimpleResult where
  Success : Option Bool := none
  Msg : Option GoString := none
  deriving DecidableEq, Repr

/-- Modelled from the spec: `pb.ModCapabilityRequest`, declared in the protocol
package; the fields `ManageCapabilities` fills in.  A capability is the number
of the enumeration. -/
structure ModCapabilityRequest where
  Info : Option ClientInfo := none
  AuthToken : Option GoString := none
  Mode : Option GoString := none
  Capability : Option Int := none
  Entity : Option Entity := none
  Group : Option Group := none
  deriving DecidableEq, Repr

/-- Modelled from the spec: `pb.ModGroupNestingRequest`, declared in the protocol
package; the fields `ModifyGroupExpansions` fills in.  An expansion mode is the
number of the enumeration. -/
structure ModGroupNestingRequest where
  Info : Option ClientInfo := none
  AuthToken : Option GoString := none
  ParentGroup : Option Group := none
  ChildGroup : Option Group := none
  Mode : Option Int := none
  deriving DecidableEq, Repr

/-- The generated tables `pb.Capability_value` and `pb.ExpansionMode_value` of
the protocol package, which map a name to the number of the enumeration; `none`
stands for a name the map does not hold. -/
structure ProtocolTables where
  Capability_value : GoString → Option Int
  ExpansionMode_value : GoString → Option Int

/-- The two calls of the RPC stub `pb.NetAuthClient` that the client methods
below make, over a state `σ` of the server: a call receives the state and the
request and returns its Go results and the state it leaves. -/
structure NetAuthStub (σ : Type) where
  ManageCapabilities : σ → ModCapabilityRequest → (Option SimpleResult × Option ClientError) × σ
  ModifyGroupNesting :
    σ → ModGroupNestingRequest → (Option SimpleResult × Option ClientError) × σ

/-- The struct `netAuthClient`, as far as the two methods read it. -/
structure netAuthClient (σ : Type) where
  c : NetAuthStub σ
  serviceID : Option GoString
  clientID : Option GoString

/-- `netAuthClient.ModifyGroupExpansions(t, p, c, m)`.  The index expression
`pb.ExpansionMode_value[m]` yields 0 for a name the map does not hold. -/
def netAuthClient.ModifyGroupExpansions {σ : Type} (pb : ProtocolTables)
    (n : netAuthClient σ) (st : σ) (t p c m : GoString) :
    (Option SimpleResult × Option ClientError) × σ :=
  let mode := (pb.ExpansionMode_value m).getD 0
  let request : ModGroupNestingRequest :=
    { Info := some { ID := n.clientID, Service := n.serviceID }
      AuthToken := some t
      ParentGroup := some { Name := some p }
      ChildGroup := some { Name := some c }
      Mode := some mode }
  let answer := n.c.ModifyGroupNesting st request
  if statusCode answer.1.2 ≠ 0 then ((none, answer.1.2), answer.2)
  else ((answer.1.1, none), answer.2)

/-- `netAuthClient.ManageCapabilities(t, e, g, c, m)`. -/
def netAuthClient.ManageCapabilities {σ : Type} (pb : ProtocolTables)
    (n : netAuthClient σ) (st : σ) (t e g c m : GoString) :
    (Option SimpleResult × Option ClientError) × σ :=
  match pb.Capability_value c with
  | none => ((none, some ClientError.UnknownCapability), st)
  | some capID =>
    let request : ModCapabilityRequest :=
      { Info := some { ID := n.clientID, Service := n.serviceID }
        AuthToken := some t
        Mode := some m
        Capability := some capID }
    let request :=
      if e ≠ [] then { request with Entity := some { ID := some e } }
      else if g ≠ [] then { request with Group := some { Name := some g } }
      else request
    let answer := n.c.ManageCapabilities st request
    if statusCode answer.1.2 ≠ 0 then ((none, answer.1.2), answer.2)
    else ((answer.1.1, none), answer.2)

/-- The requests a server has received, oldest first. -/
structure Received where
  capability : List ModCapabilityRequest := []
  nesting : List ModGroupNestingRequest := []
  deriving DecidableEq, Repr

/-- A server for the examples: it records every request and answers success. -/
def recordingStub : NetAuthStub Received where
  ManageCapabilities st request :=
    ((some { Success := some true }, none), { st with capability := st.capability ++ [request] })
  ModifyGroupNesting st request :=
    ((some { Success := some true }, none), { st with nesting := st.nesting ++ [request] })

/-- A client of the recording server. -/
def recordingClient : netAuthClient Received :=
  { c := recordingStub, serviceID := some "netauth".toList, clientID := some "host".toList }

/-- Modelled from the spec: the tables are generated in the protocol package,
outside this repository.  For the examples: the capability the tests name and
the two expansion modes of the data model; the numbers stand for those of the
enumerations. -/
def exampleTables : ProtocolTables where
  Capability_value c := if c = "GLOBAL_ROOT".toList then some 0 else none
  ExpansionMode_value m :=
    if m = "INCLUDE".toList then some 1 else if m = "EXCLUDE".toList then some 2 else none

/-! ## The order on strings -/

theorem char_eq_of_toNat_eq {a b : Char} (h : a.toNat = b.toNat) : a = b := by
  rw [← Char.ofNat_toNat a, ← Char.ofNat_toNat b, h]

theorem strLe_refl (a : GoString) : strLe a a = true := by
  induction a with
  | nil => rfl
  | cons c cs ih => simp [strLe, ih]

theorem strLe_total (a b : GoString) : strLe a b = true ∨ strLe b a = true := by
  induction a generalizing b with
  | nil => left; rfl
  | cons c cs ih =>
    cases b with
    | nil => right; rfl
    | cons d ds =>
      simp only [strLe]
      rcases Nat.lt_trichotomy c.toNat d.toNat with h | h | h
      · left; simp [h]
      · have h1 : ¬ c.toNat < d.toNat := by omega
        have h2 : ¬ d.toNat < c.toNat := by omega
        simp only [h1, h2, if_false]
        exact ih ds
      · right; simp [h]

theorem strLe_trans {a b c : GoString} (hab : strLe a b = true) (hbc : strLe b c = true) :
    strLe a c = true := by
  induction a generalizing b c with
  | nil => rfl
  | cons x xs ih =>
    cases b with
    | nil => simp [strLe] at hab
    | cons y ys =>
      cases c with
      | nil => simp [strLe] at hbc
      | cons z zs =>
        simp only [strLe] at hab hbc ⊢
        by_cases hxy : x.toNat < y.toNat
        · by_cases hyz : y.toNat < z.toNat
          · have : x.toNat < z.toNat := by omega
            simp [this]
          · by_cases hzy : z.toNat < y.toNat
            · simp [hyz, hzy] at hbc
            · have : x.toNat < z.toNat := by omega
              simp [this]
        · by_cases hyx : y.toNat < x.toNat
          · simp [hxy, hyx] at hab
          · simp only [hxy, hyx, if_false] at hab
            by_cases hyz : y.toNat < z.toNat
            · have : x.toNat < z.toNat := by omega
              simp [this]
            · by_cases hzy : z.toNat < y.toNat
              · simp [hyz, hzy] at hbc
              · simp only [hyz, hzy, if_false] at hbc
                have h1 : ¬ x.toNat < z.toNat := by omega
                have h2 : ¬ z.toNat < x.toNat := by omega
                simp only [h1, h2, if_false]
                exact ih hab hbc

theorem strLe_antisymm {a b : GoString} (hab : strLe a b = true) (hba : strLe b a = true) :
    a = b := by
  induction a generalizing b with
  | nil =>
    cases b with
    | nil => rfl
    | cons d ds => simp [strLe] at hba
  | cons c cs ih =>
    cases b with
    | nil => simp [strLe] at hab
    | cons d ds =>
      simp only [strLe] at hab hba
      by_cases hcd : c.toNat < d.toNat
      · have : ¬ d.toNat < c.toNat := by omega
        simp [hcd, this] at hba
      · by_cases hdc : d.toNat < c.toNat
        · simp [hcd, hdc] at hab
        · simp only [hcd, hdc, if_false] at hab hba
          have hc : c = d := char_eq_of_toNat_eq (by omega)
          rw [hc, ih hab hba]

theorem sortStrings_sorted (l : List GoString) : (sortStrings l).Sorted StrLE := by
  haveI : IsTotal GoString StrLE := ⟨strLe_total⟩
  haveI : IsTrans GoString StrLE := ⟨fun _ _ _ => strLe_trans⟩
  exact List.sorted_insertionSort StrLE l

theorem sortStrings_perm (l : List GoString) : (sortStrings l).Perm l :=
  List.perm_insertionSort StrLE l

theorem mem_sortStrings {l : List GoString} {x : GoString} : x ∈ sortStrings l ↔ x ∈ l :=
  (sortStrings_perm l).mem_iff

theorem sortStrings_eq_of_perm {l₁ l₂ : List GoString} (h : l₁.Perm l₂) :
    sortStrings l₁ = sortStrings l₂ := by
  haveI : IsAntisymm GoString StrLE := ⟨fun _ _ => strLe_antisymm⟩
  exact List.eq_of_perm_of_sorted
    (((sortStrings_perm l₁).trans h).trans (sortStrings_perm l₂).symm)
    (sortStrings_sorted l₁) (sortStrings_sorted l₂)

theorem sortStrings_nodup {l : List GoString} (h : l.Nodup) : (sortStrings l).Nodup :=
  (sortStrings_perm l).nodup_iff.2 h

/-- A sorted list that is sorted again is not changed. -/
theorem sortStrings_of_sorted {l : List GoString} (h : l.Sorted StrLE) : sortStrings l = l :=
  List.Sorted.insertionSort_eq h


/-! ## `strings.Split` and the key of an entry -/

theorem Split_ne_nil (s : GoString) (sep : Char) : Split s sep ≠ [] := by
  cases s with
  | nil => simp [Split]
  | cons c cs =>
    unfold Split
    split_ifs
    · simp
    · split <;> simp

theorem parts0_nil : parts0 [] = [] := rfl

theorem parts0_cons (c : Char) (cs : GoString) :
    parts0 (c :: cs) = if c = ':' then [] else c :: parts0 cs := by
  unfold parts0
  rw [Split]
  split_ifs with h
  · rfl
  · cases hs : Split cs ':' with
    | nil => exact absurd hs (Split_ne_nil cs ':')
    | cons p ps => rfl

/-- The first piece of `strings.Split(s, ":")` is the text before the first `:`. -/
theorem parts0_eq_keyOf (s : GoString) : parts0 s = keyOf s := by
  induction s with
  | nil => rfl
  | cons c cs ih =>
    rw [parts0_cons]
    by_cases h : c = ':'
    · simp [keyOf, h]
    · simp [keyOf, h, ih] 

theorem keyOf_sprintfKV {key : GoString} (hk : ':' ∉ key) (value : GoString) :
    keyOf (sprintfKV key value) = key := by
  induction key with
  | nil => simp [keyOf, sprintfKV]
  | cons c cs ih =>
    have hc : c ≠ ':' := fun h => hk (by simp [h])
    have hcs : ':' ∉ cs := fun h => hk (List.mem_cons_of_mem _ h)
    have := ih hcs
    simp only [keyOf, sprintfKV] at this ⊢
    simp [hc, this]

theorem keyOf_not_mem_colon (s : GoString) : ':' ∉ keyOf s := by
  intro h
  have := List.mem_takeWhile_imp h
  simp at this

theorem sprintfKV_ne_nil (key value : GoString) : sprintfKV key value ≠ [] := by
  simp [sprintfKV]

/-! ## The pattern `{\d+}$` removes one trailing ordinal marker -/

theorem matchDigitsClose_append_open (p t : GoString) :
    matchDigitsClose (p ++ '{' :: t) = false := by
  induction p with
  | nil => simp [matchDigitsClose, isDigit]
  | cons c p ih =>
    simp only [List.cons_append, matchDigitsClose]
    split_ifs
    · exact ih
    · simp

theorem matchDigitsClose_digits {ds : GoString} (h : ∀ d ∈ ds, isDigit d = true) :
    matchDigitsClose (ds ++ ['}']) = true := by
  induction ds with
  | nil => simp [matchDigitsClose, isDigit]
  | cons d ds ih =>
    have hd : isDigit d = true := h d (by simp)
    simp only [List.cons_append, matchDigitsClose, hd, if_true]
    exact ih (fun x hx => h x (List.mem_cons_of_mem _ hx))

theorem matchDigitsClose_elim {s : GoString} (h : matchDigitsClose s = true) :
    ∃ ds : GoString, (∀ d ∈ ds, isDigit d = true) ∧ s = ds ++ ['}'] := by
  induction s with
  | nil => simp [matchDigitsClose] at h
  | cons c cs ih =>
    simp only [matchDigitsClose] at h
    by_cases hc : isDigit c = true
    · simp only [hc, if_true] at h
      obtain ⟨ds, hds, rfl⟩ := ih h
      refine ⟨c :: ds, ?_, rfl⟩
      intro d hd
      rcases List.mem_cons.1 hd with rfl | hd
      · exact hc
      · exact hds d hd
    · simp only [hc] at h
      simp at h
      refine ⟨[], by simp, ?_⟩
      simp [h.1, h.2]

theorem matchOrdinalHere_iff (s : GoString) : matchOrdinalHere s = true ↔ HasOrdinal s [] := by
  constructor
  · intro h
    match s, h with
    | c :: d :: rest, h =>
      simp only [matchOrdinalHere, Bool.and_eq_true, decide_eq_true_eq] at h
      obtain ⟨⟨rfl, hd⟩, hrest⟩ := h
      obtain ⟨ds, hds, rfl⟩ := matchDigitsClose_elim hrest
      refine ⟨d :: ds, by simp, ?_, by simp⟩
      intro x hx
      rcases List.mem_cons.1 hx with rfl | hx
      · exact hd
      · exact hds x hx
  · rintro ⟨ds, hne, hds, rfl⟩
    cases ds with
    | nil => exact absurd rfl hne
    | cons d ds =>
      simp only [List.nil_append, List.cons_append, matchOrdinalHere, Bool.and_eq_true,
        decide_eq_true_eq]
      exact ⟨⟨trivial, hds d (by simp)⟩,
        matchDigitsClose_digits (fun x hx => hds x (List.mem_cons_of_mem _ hx))⟩

theorem matchOrdinalHere_cons_append_open (c : Char) (p t : GoString) :
    matchOrdinalHere (c :: (p ++ '{' :: t)) = false := by
  cases p with
  | nil => simp [matchOrdinalHere, isDigit]
  | cons d p =>
    simp only [List.cons_append, matchOrdinalHere, matchDigitsClose_append_open]
    simp

/-- The pattern deletes a trailing ordinal marker. -/
theorem stripOrdinal_of_hasOrdinal {k p : GoString} (h : HasOrdinal k p) : stripOrdinal k = p := by
  induction p generalizing k with
  | nil =>
    have hm := (matchOrdinalHere_iff k).2 h
    cases k with
    | nil => rfl
    | cons c cs => simp [stripOrdinal, hm]
  | cons c p ih =>
    obtain ⟨ds, hne, hds, rfl⟩ := h
    have hm := matchOrdinalHere_cons_append_open c p (ds ++ ['}'])
    rw [List.cons_append, stripOrdinal, if_neg (by simp [hm])]
    congr 1
    exact ih ⟨ds, hne, hds, rfl⟩

/-- The pattern changes nothing in a key with no trailing ordinal marker. -/
theorem stripOrdinal_of_no_ordinal {k : GoString} (h : ∀ p, ¬ HasOrdinal k p) :
    stripOrdinal k = k := by
  induction k with
  | nil => rfl
  | cons c cs ih =>
    have hm : matchOrdinalHere (c :: cs) = false := by
      cases hb : matchOrdinalHere (c :: cs) with
      | false => rfl
      | true => exact absurd ((matchOrdinalHere_iff _).1 hb) (h [])
    rw [stripOrdinal, if_neg (by simp [hm])]
    congr 1
    apply ih
    rintro p ⟨ds, hne, hds, rfl⟩
    exact h (c :: p) ⟨ds, hne, hds, rfl⟩

theorem stripsTo_iff (k k' : GoString) : StripsTo k k' ↔ k' = stripOrdinal k := by
  constructor
  · rintro (h | ⟨rfl, h⟩)
    · exact (stripOrdinal_of_hasOrdinal h).symm
    · exact (stripOrdinal_of_no_ordinal h).symm
  · rintro rfl
    by_cases h : ∃ p, HasOrdinal k p
    · obtain ⟨p, hp⟩ := h
      left
      rw [stripOrdinal_of_hasOrdinal hp]
      exact hp
    · right
      have h' : ∀ p, ¬ HasOrdinal k p := fun p hp => h ⟨p, hp⟩
      exact ⟨stripOrdinal_of_no_ordinal h', h'⟩

/-- The comparison made by CLEARFUZZY and READ is the fuzzy match of the keys. -/
theorem fuzzyEq_iff (a b : GoString) : FuzzyEq a b ↔ stripOrdinal a = stripOrdinal b := by
  constructor
  · rintro ⟨c, ha, hb⟩
    rw [← (stripsTo_iff a c).1 ha, ← (stripsTo_iff b c).1 hb]
  · intro h
    exact ⟨stripOrdinal a, (stripsTo_iff _ _).2 rfl, (stripsTo_iff _ _).2 h⟩


/-! ## `DedupStringSlice` -/

theorem GoMap.keys_incr (m : GoMap) (s : GoString) :
    (m.incr s).map Prod.fst =
      if s ∈ m.map Prod.fst then m.map Prod.fst else m.map Prod.fst ++ [s] := by
  induction m with
  | nil => simp [GoMap.incr]
  | cons e rest ih =>
    obtain ⟨k, n⟩ := e
    by_cases hk : k = s
    · simp [GoMap.incr, hk]
    · have hk' : ¬ s = k := fun h => hk h.symm
      by_cases hs : s ∈ List.map Prod.fst rest
      · simp only [GoMap.incr, hk, if_false, List.map_cons, ih, hs, if_true, List.mem_cons,
          or_true]
      · simp only [GoMap.incr, hk, if_false, List.map_cons, ih, hs, List.mem_cons, hk',
          or_self, List.cons_append]

theorem dedupFold_mem (list : List GoString) (m : GoMap) (x : GoString) :
    x ∈ (list.foldl (fun tmp s => if s.length = 0 then tmp else tmp.incr s) m).map Prod.fst ↔
      x ∈ m.map Prod.fst ∨ (x ∈ list ∧ x ≠ []) := by
  induction list generalizing m with
  | nil => simp
  | cons s rest ih =>
    rw [List.foldl_cons, ih]
    by_cases hs : s.length = 0
    · have hs' : s = [] := List.length_eq_zero.1 hs
      simp only [hs, if_true, List.mem_cons]
      constructor
      · rintro (h | ⟨h, hne⟩)
        · exact Or.inl h
        · exact Or.inr ⟨Or.inr h, hne⟩
      · rintro (h | ⟨h | h, hne⟩)
        · exact Or.inl h
        · exact absurd (h.trans hs') hne
        · exact Or.inr ⟨h, hne⟩
    · have hs' : s ≠ [] := fun h => hs (by simp [h])
      simp only [hs, if_false, GoMap.keys_incr, List.mem_cons]
      by_cases hmem : s ∈ List.map Prod.fst m
      · simp only [hmem, if_true]
        constructor
        · rintro (h | ⟨h, hne⟩)
          · exact Or.inl h
          · exact Or.inr ⟨Or.inr h, hne⟩
        · rintro (h | ⟨h | h, hne⟩)
          · exact Or.inl h
          · exact Or.inl (h ▸ hmem)
          · exact Or.inr ⟨h, hne⟩
      · simp only [hmem, if_false, List.mem_append, List.mem_singleton]
        constructor
        · rintro ((h | h) | ⟨h, hne⟩)
          · exact Or.inl h
          · exact Or.inr ⟨Or.inl h, h ▸ hs'⟩
          · exact Or.inr ⟨Or.inr h, hne⟩
        · rintro (h | ⟨h | h, hne⟩)
          · exact Or.inl (Or.inl h)
          · exact Or.inl (Or.inr h)
          · exact Or.inr ⟨h, hne⟩

theorem dedupFold_nodup (list : List GoString) (m : GoMap) (hm : (m.map Prod.fst).Nodup) :
    ((list.foldl (fun tmp s => if s.length = 0 then tmp else tmp.incr s) m).map Prod.fst).Nodup := by
  induction list generalizing m with
  | nil => simpa using hm
  | cons s rest ih =>
    rw [List.foldl_cons]
    apply ih
    by_cases hs : s.length = 0
    · simpa [hs] using hm
    · simp only [hs, if_false, GoMap.keys_incr]
      by_cases hmem : s ∈ List.map Prod.fst m
      · simpa [hmem] using hm
      · simp only [hmem, if_false]
        exact List.Nodup.append hm (List.nodup_singleton s) (by simpa using hmem)

/-- The strings `DedupStringSlice` returns: the non-empty strings of its input. -/
theorem mem_DedupStringSlice (ord : RangeOrder) (list : List GoString) (x : GoString) :
    x ∈ DedupStringSlice ord list ↔ x ∈ list ∧ x ≠ [] := by
  unfold DedupStringSlice dedupCount
  rw [(ord.visit_perm _).mem_iff, dedupFold_mem]
  simp

/-- No string occurs twice in what `DedupStringSlice` returns. -/
theorem DedupStringSlice_nodup (ord : RangeOrder) (list : List GoString) :
    (DedupStringSlice ord list).Nodup := by
  unfold DedupStringSlice dedupCount
  rw [(ord.visit_perm _).nodup_iff]
  exact dedupFold_nodup list [] (by simp)

/-- Sorting after `DedupStringSlice` gives a list that depends only on which
non-empty strings went in, not on the order the map was ranged over. -/
theorem sort_dedup_congr (ord₁ ord₂ : RangeOrder) {l₁ l₂ : List GoString}
    (h : ∀ x, x ≠ [] → (x ∈ l₁ ↔ x ∈ l₂)) :
    sortStrings (DedupStringSlice ord₁ l₁) = sortStrings (DedupStringSlice ord₂ l₂) := by
  apply sortStrings_eq_of_perm
  rw [List.perm_ext_iff_of_nodup (DedupStringSlice_nodup _ _) (DedupStringSlice_nodup _ _)]
  intro x
  rw [mem_DedupStringSlice, mem_DedupStringSlice]
  constructor
  · rintro ⟨hx, hne⟩
    exact ⟨(h x hne).1 hx, hne⟩
  · rintro ⟨hx, hne⟩
    exact ⟨(h x hne).2 hx, hne⟩

/-- A duplicate-free sorted list of non-empty strings passes through
`DedupStringSlice` and `sort.Strings` unchanged. -/
theorem sort_dedup_of_sorted (ord : RangeOrder) {l : List GoString} (hs : l.Sorted StrLE)
    (hnd : l.Nodup) (hne : ∀ x ∈ l, x ≠ []) : sortStrings (DedupStringSlice ord l) = l := by
  have hp : (DedupStringSlice ord l).Perm l := by
    rw [List.perm_ext_iff_of_nodup (DedupStringSlice_nodup _ _) hnd]
    intro x
    rw [mem_DedupStringSlice]
    exact ⟨fun h => h.1, fun h => ⟨h, hne x h⟩⟩
  rw [sortStrings_eq_of_perm hp, sortStrings_of_sorted hs]

/-! ## The loops of `PatchKeyValueSlice` -/

theorem foldl_upsertStep (key value : GoString) (slice : List GoString)
    (st : List GoString × Bool) :
    slice.foldl (upsertStep key value) st =
      (st.1 ++ slice.map (fun s => if parts0 s = key then sprintfKV key value else s),
        st.2 || slice.any (fun s => decide (parts0 s = key))) := by
  induction slice generalizing st with
  | nil => simp
  | cons s rest ih =>
    rw [List.foldl_cons, ih]
    by_cases h : parts0 s = key
    · simp [upsertStep, h]
    · simp [upsertStep, h]

theorem foldl_clearFuzzyStep (strippedK : GoString) (slice acc : List GoString) :
    slice.foldl (clearFuzzyStep strippedK) acc =
      acc ++ slice.filter (fun kv => decide (stripOrdinal (parts0 kv) ≠ strippedK)) := by
  induction slice generalizing acc with
  | nil => simp
  | cons s rest ih =>
    rw [List.foldl_cons, ih]
    by_cases h : stripOrdinal (parts0 s) = strippedK
    · simp [clearFuzzyStep, h]
    · simp [clearFuzzyStep, h]

theorem foldl_clearExactStep (key : GoString) (slice acc : List GoString) :
    slice.foldl (clearExactStep key) acc =
      acc ++ slice.filter (fun kv => decide (parts0 kv ≠ key)) := by
  induction slice generalizing acc with
  | nil => simp
  | cons s rest ih =>
    rw [List.foldl_cons, ih]
    by_cases h : parts0 s = key
    · simp [clearExactStep, h]
    · simp [clearExactStep, h]

theorem foldl_readStep (strippedK : GoString) (slice acc : List GoString) :
    slice.foldl (readStep strippedK) acc =
      acc ++ slice.filter (fun kv => decide (stripOrdinal (parts0 kv) = strippedK)) := by
  induction slice generalizing acc with
  | nil => simp
  | cons s rest ih =>
    rw [List.foldl_cons, ih]
    by_cases h : stripOrdinal (parts0 s) = strippedK
    · simp [readStep, h]
    · simp [readStep, h]

theorem mem_upsertList (slice : List GoString) (key value x : GoString) :
    x ∈ upsertList slice key value ↔
      x = sprintfKV key value ∨ (x ∈ slice ∧ parts0 x ≠ key) := by
  unfold upsertList
  rw [foldl_upsertStep]
  simp only [List.nil_append, Bool.false_or]
  by_cases hany : slice.any (fun s => decide (parts0 s = key)) = true
  · simp only [hany, Bool.not_true, Bool.false_eq_true, if_false, List.mem_map]
    obtain ⟨w, hw, hwk⟩ := List.any_eq_true.1 hany
    have hwk' : parts0 w = key := by simpa using hwk
    constructor
    · rintro ⟨s, hs, rfl⟩
      by_cases h : parts0 s = key
      · left; simp [h]
      · right; simp [h, hs]
    · rintro (rfl | ⟨hx, hk⟩)
      · exact ⟨w, hw, by simp [hwk']⟩
      · exact ⟨x, hx, by simp [hk]⟩
  · have hany' : slice.any (fun s => decide (parts0 s = key)) = false := by
      simpa using hany
    simp only [hany', Bool.not_false, if_true, List.mem_append, List.mem_map,
      List.mem_singleton]
    have hall : ∀ s ∈ slice, parts0 s ≠ key := by
      intro s hs h
      exact hany (List.any_eq_true.2 ⟨s, hs, by simp [h]⟩)
    constructor
    · rintro (⟨s, hs, rfl⟩ | rfl)
      · right; simp [hall s hs, hs]
      · left; rfl
    · rintro (rfl | ⟨hx, hk⟩)
      · right; rfl
      · left; exact ⟨x, hx, by simp [hk]⟩

theorem ToUpper_UPSERT : ToUpper "UPSERT".toList = "UPSERT".toList := by decide
theorem ToUpper_CLEARFUZZY : ToUpper "CLEARFUZZY".toList = "CLEARFUZZY".toList := by decide
theorem ToUpper_CLEAREXACT : ToUpper "CLEAREXACT".toList = "CLEAREXACT".toList := by decide
theorem ToUpper_READ : ToUpper "READ".toList = "READ".toList := by decide

theorem PatchKeyValueSlice_upsert (ord : RangeOrder) (slice : List GoString)
    (key value : GoString) :
    (PatchKeyValueSlice ord slice "UPSERT".toList key value).ret =
      sortStrings (DedupStringSlice ord (upsertList slice key value)) := by
  simp only [PatchKeyValueSlice, ToUpper_UPSERT, if_true, upsertList]

theorem PatchKeyValueSlice_clearFuzzy (ord : RangeOrder) (slice : List GoString)
    (key value : GoString) :
    (PatchKeyValueSlice ord slice "CLEARFUZZY".toList key value).ret =
      sortStrings (DedupStringSlice ord
        (slice.filter (fun kv => decide (stripOrdinal (parts0 kv) ≠ stripOrdinal key)))) := by
  have h : ¬ ("CLEARFUZZY".toList = "UPSERT".toList) := by decide
  simp only [PatchKeyValueSlice, ToUpper_CLEARFUZZY, h, if_false, if_true,
    foldl_clearFuzzyStep, List.nil_append]

theorem PatchKeyValueSlice_clearExact (ord : RangeOrder) (slice : List GoString)
    (key value : GoString) :
    (PatchKeyValueSlice ord slice "CLEAREXACT".toList key value).ret =
      sortStrings (DedupStringSlice ord (slice.filter (fun kv => decide (parts0 kv ≠ key)))) := by
  have h₁ : ¬ ("CLEAREXACT".toList = "UPSERT".toList) := by decide
  have h₂ : ¬ ("CLEAREXACT".toList = "CLEARFUZZY".toList) := by decide
  simp only [PatchKeyValueSlice, ToUpper_CLEAREXACT, h₁, h₂, if_false, if_true,
    foldl_clearExactStep, List.nil_append]

theorem PatchKeyValueSlice_read (ord : RangeOrder) (slice : List GoString)
    (key value : GoString) :
    (PatchKeyValueSlice ord slice "READ".toList key value).ret =
      if key = "*".toList then sortStrings slice
      else sortStrings
        (slice.filter (fun kv => decide (stripOrdinal (parts0 kv) = stripOrdinal key))) := by
  have h₁ : ¬ ("READ".toList = "UPSERT".toList) := by decide
  have h₂ : ¬ ("READ".toList = "CLEARFUZZY".toList) := by decide
  have h₃ : ¬ ("READ".toList = "CLEAREXACT".toList) := by decide
  simp only [PatchKeyValueSlice, ToUpper_READ, h₁, h₂, h₃, if_false, if_true,
    foldl_readStep, List.nil_append]
  split_ifs <;> rfl


/-! ## What each mode returns -/

theorem upsert_ret_nodup (ord : RangeOrder) (slice : List GoString) (key value : GoString) :
    (PatchKeyValueSlice ord slice "UPSERT".toList key value).ret.Nodup := by
  rw [PatchKeyValueSlice_upsert]
  exact sortStrings_nodup (DedupStringSlice_nodup _ _)

theorem upsert_ret_sorted (ord : RangeOrder) (slice : List GoString) (key value : GoString) :
    (PatchKeyValueSlice ord slice "UPSERT".toList key value).ret.Sorted StrLE := by
  rw [PatchKeyValueSlice_upsert]
  exact sortStrings_sorted _

theorem mem_upsert_ret (ord : RangeOrder) (slice : List GoString) (key value x : GoString) :
    x ∈ (PatchKeyValueSlice ord slice "UPSERT".toList key value).ret ↔
      x = sprintfKV key value ∨ (x ∈ slice ∧ keyOf x ≠ key ∧ x ≠ []) := by
  rw [PatchKeyValueSlice_upsert, mem_sortStrings, mem_DedupStringSlice, mem_upsertList,
    parts0_eq_keyOf]
  constructor
  · rintro ⟨h | ⟨hx, hk⟩, hne⟩
    · exact Or.inl h
    · exact Or.inr ⟨hx, hk, hne⟩
  · rintro (h | ⟨hx, hk, hne⟩)
    · exact ⟨Or.inl h, h ▸ sprintfKV_ne_nil key value⟩
    · exact ⟨Or.inr ⟨hx, hk⟩, hne⟩

/-- C1: on a sequence of non-empty entries and a key without `:`, UPSERT returns
the duplicate-free ascending list whose elements are `key:value` and the input
entries with another key; exactly one entry of it has the key `key`, and that
entry is `key:value`. -/
theorem upsert_replaces_key (ord : RangeOrder) (seq : List GoString) (key value : GoString)
    (hne : ∀ s ∈ seq, s ≠ []) (hk : ':' ∉ key) :
    (PatchKeyValueSlice ord seq "UPSERT".toList key value).ret.Nodup ∧
    (PatchKeyValueSlice ord seq "UPSERT".toList key value).ret.Sorted StrLE ∧
    (∀ x, x ∈ (PatchKeyValueSlice ord seq "UPSERT".toList key value).ret ↔
      x = key ++ ':' :: value ∨ (x ∈ seq ∧ keyOf x ≠ key)) ∧
    (PatchKeyValueSlice ord seq "UPSERT".toList key value).ret.filter
      (fun x => decide (keyOf x = key)) = [key ++ ':' :: value] := by
  have hmem : ∀ x, x ∈ (PatchKeyValueSlice ord seq "UPSERT".toList key value).ret ↔
      x = key ++ ':' :: value ∨ (x ∈ seq ∧ keyOf x ≠ key) := by
    intro x
    rw [mem_upsert_ret]
    constructor
    · rintro (h | ⟨hx, hkx, _⟩)
      · exact Or.inl h
      · exact Or.inr ⟨hx, hkx⟩
    · rintro (h | ⟨hx, hkx⟩)
      · exact Or.inl h
      · exact Or.inr ⟨hx, hkx, hne x hx⟩
  refine ⟨upsert_ret_nodup _ _ _ _, upsert_ret_sorted _ _ _ _, hmem, ?_⟩
  rw [← List.perm_singleton]
  rw [List.perm_ext_iff_of_nodup ((upsert_ret_nodup _ _ _ _).filter _) (List.nodup_singleton _)]
  intro x
  rw [List.mem_filter, hmem, List.mem_singleton]
  constructor
  · rintro ⟨h | ⟨_, hkx⟩, hkey⟩
    · exact h
    · exact absurd (by simpa using hkey) hkx
  · intro h
    refine ⟨Or.inl h, ?_⟩
    have := keyOf_sprintfKV hk value
    simp only [sprintfKV] at this
    simp [h, this]

theorem upsert_replaces_key_witness :
    (∀ s ∈ ["a:1".toList, "k:old".toList, "a:1".toList], s ≠ []) ∧ ':' ∉ "k".toList ∧
    ((PatchKeyValueSlice RangeOrder.reversed ["a:1".toList, "k:old".toList, "a:1".toList]
        "UPSERT".toList "k".toList "new".toList).ret.Nodup ∧
    (PatchKeyValueSlice RangeOrder.reversed ["a:1".toList, "k:old".toList, "a:1".toList]
        "UPSERT".toList "k".toList "new".toList).ret.Sorted StrLE ∧
    (∀ x, x ∈ (PatchKeyValueSlice RangeOrder.reversed
        ["a:1".toList, "k:old".toList, "a:1".toList]
        "UPSERT".toList "k".toList "new".toList).ret ↔
      x = "k".toList ++ ':' :: "new".toList ∨
        (x ∈ ["a:1".toList, "k:old".toList, "a:1".toList] ∧ keyOf x ≠ "k".toList)) ∧
    (PatchKeyValueSlice RangeOrder.reversed ["a:1".toList, "k:old".toList, "a:1".toList]
        "UPSERT".toList "k".toList "new".toList).ret.filter
      (fun x => decide (keyOf x = "k".toList)) = ["k".toList ++ ':' :: "new".toList]) :=
  ⟨by decide, by decide,
    upsert_replaces_key RangeOrder.reversed ["a:1".toList, "k:old".toList, "a:1".toList]
      "k".toList "new".toList (by decide) (by decide)⟩


theorem mem_clearFuzzy_ret (ord : RangeOrder) (slice : List GoString) (key value x : GoString) :
    x ∈ (PatchKeyValueSlice ord slice "CLEARFUZZY".toList key value).ret ↔
      x ∈ slice ∧ ¬ FuzzyEq (keyOf x) key ∧ x ≠ [] := by
  rw [PatchKeyValueSlice_clearFuzzy, mem_sortStrings, mem_DedupStringSlice, List.mem_filter,
    parts0_eq_keyOf, fuzzyEq_iff]
  simp only [ne_eq, decide_not, Bool.not_eq_true', decide_eq_false_iff_not]
  tauto

theorem mem_clearExact_ret (ord : RangeOrder) (slice : List GoString) (key value x : GoString) :
    x ∈ (PatchKeyValueSlice ord slice "CLEAREXACT".toList key value).ret ↔
      x ∈ slice ∧ keyOf x ≠ key ∧ x ≠ [] := by
  rw [PatchKeyValueSlice_clearExact, mem_sortStrings, mem_DedupStringSlice, List.mem_filter,
    parts0_eq_keyOf]
  simp only [ne_eq, decide_not, Bool.not_eq_true', decide_eq_false_iff_not]
  tauto

/-- C2: on a sequence of non-empty entries, CLEARFUZZY returns the duplicate-free
ascending list of exactly the input entries whose key does not match `key`
fuzzily (equal after one trailing ordinal marker is removed from each); clearing
`attr` removes `attr{0}:x` and `attr{12}:y` and keeps `attrother:z`. -/
theorem clearFuzzy_removes_ordinals (ord : RangeOrder) (seq : List GoString)
    (key value : GoString) (hne : ∀ s ∈ seq, s ≠ []) :
    (PatchKeyValueSlice ord seq "CLEARFUZZY".toList key value).ret.Nodup ∧
    (PatchKeyValueSlice ord seq "CLEARFUZZY".toList key value).ret.Sorted StrLE ∧
    (∀ x, x ∈ (PatchKeyValueSlice ord seq "CLEARFUZZY".toList key value).ret ↔
      x ∈ seq ∧ ¬ FuzzyEq (keyOf x) key) ∧
    (PatchKeyValueSlice ord ["attr{0}:x".toList, "attr{12}:y".toList, "attrother:z".toList]
      "CLEARFUZZY".toList "attr".toList value).ret = ["attrother:z".toList] := by
  refine ⟨?_, ?_, ?_, ?_⟩
  · rw [PatchKeyValueSlice_clearFuzzy]
    exact sortStrings_nodup (DedupStringSlice_nodup _ _)
  · rw [PatchKeyValueSlice_clearFuzzy]
    exact sortStrings_sorted _
  · intro x
    rw [mem_clearFuzzy_ret]
    exact ⟨fun h => ⟨h.1, h.2.1⟩, fun h => ⟨h.1, h.2, hne x h.1⟩⟩
  · rw [PatchKeyValueSlice_clearFuzzy]
    have hf : (["attr{0}:x".toList, "attr{12}:y".toList, "attrother:z".toList].filter
        (fun kv => decide (stripOrdinal (parts0 kv) ≠ stripOrdinal "attr".toList))) =
        ["attrother:z".toList] := by decide
    rw [hf]
    exact sort_dedup_of_sorted ord (List.sorted_singleton _) (List.nodup_singleton _)
      (by decide)

theorem clearFuzzy_removes_ordinals_witness :
    (∀ s ∈ ["b:1".toList, "a{3}:x".toList, "a:y".toList, "b:1".toList], s ≠ []) ∧
    ((PatchKeyValueSlice RangeOrder.reversed
        ["b:1".toList, "a{3}:x".toList, "a:y".toList, "b:1".toList]
        "CLEARFUZZY".toList "a{0}".toList []).ret.Nodup ∧
    (PatchKeyValueSlice RangeOrder.reversed
        ["b:1".toList, "a{3}:x".toList, "a:y".toList, "b:1".toList]
        "CLEARFUZZY".toList "a{0}".toList []).ret.Sorted StrLE ∧
    (∀ x, x ∈ (PatchKeyValueSlice RangeOrder.reversed
        ["b:1".toList, "a{3}:x".toList, "a:y".toList, "b:1".toList]
        "CLEARFUZZY".toList "a{0}".toList []).ret ↔
      x ∈ ["b:1".toList, "a{3}:x".toList, "a:y".toList, "b:1".toList] ∧
        ¬ FuzzyEq (keyOf x) "a{0}".toList) ∧
    (PatchKeyValueSlice RangeOrder.reversed
      ["attr{0}:x".toList, "attr{12}:y".toList, "attrother:z".toList]
      "CLEARFUZZY".toList "attr".toList []).ret = ["attrother:z".toList]) :=
  ⟨by decide,
    clearFuzzy_removes_ordinals RangeOrder.reversed
      ["b:1".toList, "a{3}:x".toList, "a:y".toList, "b:1".toList] "a{0}".toList []
      (by decide)⟩

theorem read_star_ret (ord : RangeOrder) (slice : List GoString) (value : GoString) :
    (PatchKeyValueSlice ord slice "READ".toList "*".toList value).ret = sortStrings slice := by
  rw [PatchKeyValueSlice_read, if_pos rfl]

/-- C3: on a sequence of non-empty entries, CLEAREXACT returns the duplicate-free
ascending list of exactly the input entries whose key is not `key`; an entry such
as `key{0}:v` stays; and READ `*` of the result holds no entry with the key
`key`. -/
theorem clearExact_removes_key (ord : RangeOrder) (seq : List GoString)
    (key value : GoString) (hne : ∀ s ∈ seq, s ≠ []) :
    (PatchKeyValueSlice ord seq "CLEAREXACT".toList key value).ret.Nodup ∧
    (PatchKeyValueSlice ord seq "CLEAREXACT".toList key value).ret.Sorted StrLE ∧
    (∀ x, x ∈ (PatchKeyValueSlice ord seq "CLEAREXACT".toList key value).ret ↔
      x ∈ seq ∧ keyOf x ≠ key) ∧
    (PatchKeyValueSlice ord ["key:a".toList, "key{0}:v".toList]
      "CLEAREXACT".toList "key".toList value).ret = ["key{0}:v".toList] ∧
    (∀ (ord' : RangeOrder) (value' : GoString),
      ∀ x ∈ (PatchKeyValueSlice ord'
          (PatchKeyValueSlice ord seq "CLEAREXACT".toList key value).ret
          "READ".toList "*".toList value').ret,
        keyOf x ≠ key) := by
  refine ⟨?_, ?_, ?_, ?_, ?_⟩
  · rw [PatchKeyValueSlice_clearExact]
    exact sortStrings_nodup (DedupStringSlice_nodup _ _)
  · rw [PatchKeyValueSlice_clearExact]
    exact sortStrings_sorted _
  · intro x
    rw [mem_clearExact_ret]
    exact ⟨fun h => ⟨h.1, h.2.1⟩, fun h => ⟨h.1, h.2, hne x h.1⟩⟩
  · rw [PatchKeyValueSlice_clearExact]
    have hf : (["key:a".toList, "key{0}:v".toList].filter
        (fun kv => decide (parts0 kv ≠ "key".toList))) = ["key{0}:v".toList] := by decide
    rw [hf]
    exact sort_dedup_of_sorted ord (List.sorted_singleton _) (List.nodup_singleton _)
      (by decide)
  · intro ord' value' x hx
    rw [read_star_ret, mem_sortStrings, mem_clearExact_ret] at hx
    exact hx.2.1

theorem clearExact_removes_key_witness :
    (∀ s ∈ ["b:1".toList, "a{3}:x".toList, "a:y".toList, "b:1".toList], s ≠ []) ∧
    ((PatchKeyValueSlice RangeOrder.reversed
        ["b:1".toList, "a{3}:x".toList, "a:y".toList, "b:1".toList]
        "CLEAREXACT".toList "a".toList []).ret.Nodup ∧
    (PatchKeyValueSlice RangeOrder.reversed
        ["b:1".toList, "a{3}:x".toList, "a:y".toList, "b:1".toList]
        "CLEAREXACT".toList "a".toList []).ret.Sorted StrLE ∧
    (∀ x, x ∈ (PatchKeyValueSlice RangeOrder.reversed
        ["b:1".toList, "a{3}:x".toList, "a:y".toList, "b:1".toList]
        "CLEAREXACT".toList "a".toList []).ret ↔
      x ∈ ["b:1".toList, "a{3}:x".toList, "a:y".toList, "b:1".toList] ∧
        keyOf x ≠ "a".toList) ∧
    (PatchKeyValueSlice RangeOrder.reversed ["key:a".toList, "key{0}:v".toList]
      "CLEAREXACT".toList "key".toList []).ret = ["key{0}:v".toList] ∧
    (∀ (ord' : RangeOrder) (value' : GoString),
      ∀ x ∈ (PatchKeyValueSlice ord'
          (PatchKeyValueSlice RangeOrder.reversed
            ["b:1".toList, "a{3}:x".toList, "a:y".toList, "b:1".toList]
            "CLEAREXACT".toList "a".toList []).ret
          "READ".toList "*".toList value').ret,
        keyOf x ≠ "a".toList)) :=
  ⟨by decide,
    clearExact_removes_key RangeOrder.reversed
      ["b:1".toList, "a{3}:x".toList, "a:y".toList, "b:1".toList] "a".toList []
      (by decide)⟩

theorem read_ret_of_ne_star (ord : RangeOrder) (slice : List GoString) (key value : GoString)
    (hk : key ≠ "*".toList) :
    (PatchKeyValueSlice ord slice "READ".toList key value).ret =
      sortStrings
        (slice.filter (fun kv => decide (stripOrdinal (parts0 kv) = stripOrdinal key))) := by
  rw [PatchKeyValueSlice_read, if_neg hk]

/-- C4: READ returns an ascending list.  For the key `*` it is a rearrangement of
the whole input.  For any other key it is a rearrangement of the input entries
whose key matches `key` fuzzily, each as often as the input holds it. -/
theorem read_returns_matching (ord : RangeOrder) (seq : List GoString) (key value : GoString) :
    (PatchKeyValueSlice ord seq "READ".toList key value).ret.Sorted StrLE ∧
    (key = "*".toList → (PatchKeyValueSlice ord seq "READ".toList key value).ret.Perm seq) ∧
    (key ≠ "*".toList →
      (PatchKeyValueSlice ord seq "READ".toList key value).ret.Perm
        (seq.filter (fun x => @decide (FuzzyEq (keyOf x) key) (Classical.propDecidable _)))) := by
  refine ⟨?_, ?_, ?_⟩
  · rw [PatchKeyValueSlice_read]
    split_ifs <;> exact sortStrings_sorted _
  · rintro rfl
    rw [read_star_ret]
    exact sortStrings_perm _
  · intro hk
    rw [read_ret_of_ne_star ord seq key value hk]
    have hf : (seq.filter (fun x => @decide (FuzzyEq (keyOf x) key) (Classical.propDecidable _))) =
        seq.filter (fun kv => decide (stripOrdinal (parts0 kv) = stripOrdinal key)) := by
      apply List.filter_congr
      intro x _
      rw [@decide_eq_decide]
      rw [fuzzyEq_iff, parts0_eq_keyOf]
    rw [hf]
    exact sortStrings_perm _

theorem read_returns_matching_witness :
    ("*".toList = "*".toList ∧ "k{7}".toList ≠ "*".toList) ∧
    (PatchKeyValueSlice RangeOrder.insertion ["k{1}:x".toList, "b:1".toList, "k:1".toList]
        "READ".toList "*".toList []).ret.Perm ["k{1}:x".toList, "b:1".toList, "k:1".toList] ∧
    (PatchKeyValueSlice RangeOrder.insertion
        ["k{1}:x".toList, "b:1".toList, "k:1".toList, "k:1".toList]
        "READ".toList "k{7}".toList []).ret.Perm
      (["k{1}:x".toList, "b:1".toList, "k:1".toList, "k:1".toList].filter
        (fun x => @decide (FuzzyEq (keyOf x) "k{7}".toList) (Classical.propDecidable _))) :=
  ⟨⟨rfl, by decide⟩,
    (read_returns_matching RangeOrder.insertion
      ["k{1}:x".toList, "b:1".toList, "k:1".toList] "*".toList []).2.1 rfl,
    (read_returns_matching RangeOrder.insertion
      ["k{1}:x".toList, "b:1".toList, "k:1".toList, "k:1".toList] "k{7}".toList []).2.2
      (by decide)⟩


/-! ## UPSERT followed by READ, and UPSERT twice -/

/-- C5, as stated, fails on the code.  READ matches keys fuzzily while UPSERT
replaces exact keys only, so an entry `k{1}:x` survives UPSERT of `k` and is read
back with it; with a key holding `:` nothing is read back; with the key `*`
everything is. -/
theorem upsert_then_read_not_single :
    ((PatchKeyValueSlice RangeOrder.insertion
        (PatchKeyValueSlice RangeOrder.insertion ["k{1}:x".toList]
          "UPSERT".toList "k".toList "v".toList).ret
        "READ".toList "k".toList []).ret = ["k:v".toList, "k{1}:x".toList] ∧
      ["k:v".toList, "k{1}:x".toList] ≠ ["k:v".toList]) ∧
    ((PatchKeyValueSlice RangeOrder.insertion
        (PatchKeyValueSlice RangeOrder.insertion []
          "UPSERT".toList "a:b".toList "v".toList).ret
        "READ".toList "a:b".toList []).ret = [] ∧
      ([] : List GoString) ≠ ["a:b:v".toList]) ∧
    ((PatchKeyValueSlice RangeOrder.insertion
        (PatchKeyValueSlice RangeOrder.insertion ["a:1".toList]
          "UPSERT".toList "*".toList "v".toList).ret
        "READ".toList "*".toList []).ret = ["*:v".toList, "a:1".toList] ∧
      ["*:v".toList, "a:1".toList] ≠ ["*:v".toList]) := by
  decide

/-- C5, amended: for a key without `:` that is not `*`, and a sequence in which
every non-empty entry whose key matches `key` fuzzily has exactly the key `key`,
UPSERT followed by READ of the same key returns exactly the one entry
`key:value`. -/
theorem upsert_then_read_single (ord₁ ord₂ : RangeOrder) (seq : List GoString)
    (key value value' : GoString) (hk : ':' ∉ key) (hstar : key ≠ "*".toList)
    (hfz : ∀ s ∈ seq, s ≠ [] → FuzzyEq (keyOf s) key → keyOf s = key) :
    (PatchKeyValueSlice ord₂
        (PatchKeyValueSlice ord₁ seq "UPSERT".toList key value).ret
        "READ".toList key value').ret = [key ++ ':' :: value] := by
  rw [read_ret_of_ne_star _ _ _ _ hstar]
  have hkv : keyOf (key ++ ':' :: value) = key := keyOf_sprintfKV hk value
  have hf : (PatchKeyValueSlice ord₁ seq "UPSERT".toList key value).ret.filter
      (fun kv => decide (stripOrdinal (parts0 kv) = stripOrdinal key)) =
      [key ++ ':' :: value] := by
    rw [← List.perm_singleton]
    rw [List.perm_ext_iff_of_nodup ((upsert_ret_nodup _ _ _ _).filter _)
      (List.nodup_singleton _)]
    intro x
    rw [List.mem_filter, mem_upsert_ret, List.mem_singleton, parts0_eq_keyOf]
    simp only [sprintfKV, decide_eq_true_eq]
    constructor
    · rintro ⟨h | ⟨hx, hkx, hne⟩, hs⟩
      · exact h
      · exact absurd (hfz x hx hne ((fuzzyEq_iff _ _).2 hs)) hkx
    · intro h
      exact ⟨Or.inl h, by rw [h, hkv]⟩
  rw [hf]
  rfl

theorem upsert_then_read_single_witness :
    (':' ∉ "k".toList ∧ "k".toList ≠ "*".toList ∧
      ∀ s ∈ ["k:old".toList, "b{1}:x".toList, "".toList], s ≠ [] →
        FuzzyEq (keyOf s) "k".toList → keyOf s = "k".toList) ∧
    (PatchKeyValueSlice RangeOrder.reversed
        (PatchKeyValueSlice RangeOrder.insertion ["k:old".toList, "b{1}:x".toList, "".toList]
          "UPSERT".toList "k".toList "new".toList).ret
        "READ".toList "k".toList []).ret = ["k".toList ++ ':' :: "new".toList] :=
  have h : ∀ s ∈ ["k:old".toList, "b{1}:x".toList, "".toList], s ≠ [] →
      FuzzyEq (keyOf s) "k".toList → keyOf s = "k".toList := by
    intro s hs _ hf
    rw [fuzzyEq_iff] at hf
    simp only [List.mem_cons, List.mem_singleton, List.not_mem_nil, or_false] at hs
    rcases hs with rfl | rfl | rfl
    · decide
    · exact absurd hf (by decide)
    · exact absurd hf (by decide)
  ⟨⟨by decide, by decide, h⟩,
    upsert_then_read_single RangeOrder.insertion RangeOrder.reversed
      ["k:old".toList, "b{1}:x".toList, "".toList] "k".toList "new".toList []
      (by decide) (by decide) h⟩

/-- C6: UPSERT is idempotent.  For every sequence, key and value, and whatever
order the maps are ranged over, a second UPSERT of the same key and value
returns the list the first one returned. -/
theorem upsert_idempotent (ord₁ ord₂ : RangeOrder) (s : List GoString) (k v : GoString) :
    (PatchKeyValueSlice ord₂
        (PatchKeyValueSlice ord₁ s "UPSERT".toList k v).ret "UPSERT".toList k v).ret =
      (PatchKeyValueSlice ord₁ s "UPSERT".toList k v).ret := by
  haveI : IsAntisymm GoString StrLE := ⟨fun _ _ => strLe_antisymm⟩
  apply List.eq_of_perm_of_sorted _ (upsert_ret_sorted _ _ _ _) (upsert_ret_sorted _ _ _ _)
  rw [List.perm_ext_iff_of_nodup (upsert_ret_nodup _ _ _ _) (upsert_ret_nodup _ _ _ _)]
  intro x
  rw [mem_upsert_ret, mem_upsert_ret]
  tauto

/-! ## A mode that is not recognised -/

/-- C7, as stated, fails on the code: `FROB` is none of the four modes, and the
call returns its input as an ordinary result.  The function has one result, the
slice; it has no way to report an error. -/
theorem unknown_mode_returns_slice :
    ToUpper "FROB".toList ∉
      ["UPSERT".toList, "CLEARFUZZY".toList, "CLEAREXACT".toList, "READ".toList] ∧
    (PatchKeyValueSlice RangeOrder.insertion ["b:2".toList, "a:1".toList]
      "FROB".toList "a".toList "9".toList).ret = ["b:2".toList, "a:1".toList] := by
  decide

/-- C7, amended: for every mode string that, upper-cased, is none of UPSERT,
CLEARFUZZY, CLEAREXACT and READ, `PatchKeyValueSlice` returns the slice it was
given, unchanged, and leaves the caller's slice as it was. -/
theorem unknown_mode_is_noop (ord : RangeOrder) (slice : List GoString)
    (mode key value : GoString)
    (hmode : ToUpper mode ∉
      ["UPSERT".toList, "CLEARFUZZY".toList, "CLEAREXACT".toList, "READ".toList]) :
    PatchKeyValueSlice ord slice mode key value = ⟨slice, slice⟩ := by
  simp only [List.mem_cons, List.mem_singleton, List.not_mem_nil, or_false, not_or] at hmode
  obtain ⟨h₁, h₂, h₃, h₄⟩ := hmode
  simp only [PatchKeyValueSlice, h₁, h₂, h₃, h₄, if_false]

theorem unknown_mode_is_noop_witness :
    ToUpper "append".toList ∉
      ["UPSERT".toList, "CLEARFUZZY".toList, "CLEAREXACT".toList, "READ".toList] ∧
    PatchKeyValueSlice RangeOrder.reversed ["b:2".toList, "".toList, "a:1".toList, "a:1".toList]
        "append".toList "a".toList "9".toList =
      ⟨["b:2".toList, "".toList, "a:1".toList, "a:1".toList],
        ["b:2".toList, "".toList, "a:1".toList, "a:1".toList]⟩ :=
  ⟨by decide,
    unknown_mode_is_noop RangeOrder.reversed
      ["b:2".toList, "".toList, "a:1".toList, "a:1".toList]
      "append".toList "a".toList "9".toList (by decide)⟩


/-! ## The hook `create-entity-if-missing` -/

theorem createEntityIfMissing_of_loaded {σ : Type} (c : DB σ) (st : σ) (e de : Entity)
    (h : (c.LoadEntity st de.GetID).1.2 = none) :
    CreateEntityIfMissing.Run c st e de =
      (⟨none, protoMerge e (c.LoadEntity st de.GetID).1.1, de⟩, (c.LoadEntity st de.GetID).2) := by
  simp only [CreateEntityIfMissing.Run, h]

theorem createEntityIfMissing_of_unknown {σ : Type} (c : DB σ) (st : σ) (e de : Entity)
    (h : (c.LoadEntity st de.GetID).1.2 = some GoError.ErrUnknownEntity) :
    CreateEntityIfMissing.Run c st e de =
      (⟨none, protoMerge e (some { ID := de.ID }), de⟩, (c.LoadEntity st de.GetID).2) := by
  simp only [CreateEntityIfMissing.Run, h]

theorem createEntityIfMissing_of_failed {σ : Type} (c : DB σ) (st : σ) (e de : Entity)
    (msg : GoString) (h : (c.LoadEntity st de.GetID).1.2 = some (GoError.other msg)) :
    CreateEntityIfMissing.Run c st e de =
      (⟨some (GoError.other msg), e, de⟩, (c.LoadEntity st de.GetID).2) := by
  simp only [CreateEntityIfMissing.Run, h]

/-- C8: `CreateEntityIfMissing.Run` returns an error exactly when the load of
`de`'s identifier fails with an error other than the unknown-entity error; it
then returns that very error and leaves `e` and `de` as they were. -/
theorem createEntityIfMissing_error_iff {σ : Type} (c : DB σ) (st : σ) (e de : Entity) :
    ((CreateEntityIfMissing.Run c st e de).1.err ≠ none ↔
      ((c.LoadEntity st de.GetID).1.2 ≠ none ∧
        (c.LoadEntity st de.GetID).1.2 ≠ some GoError.ErrUnknownEntity)) ∧
    ((CreateEntityIfMissing.Run c st e de).1.err ≠ none →
      (CreateEntityIfMissing.Run c st e de).1.err = (c.LoadEntity st de.GetID).1.2 ∧
      (CreateEntityIfMissing.Run c st e de).1.e = e ∧
      (CreateEntityIfMissing.Run c st e de).1.de = de) := by
  cases h : (c.LoadEntity st de.GetID).1.2 with
  | none =>
    rw [createEntityIfMissing_of_loaded c st e de h]
    simp
  | some err =>
    cases err with
    | ErrUnknownEntity =>
      rw [createEntityIfMissing_of_unknown c st e de h]
      simp
    | other msg =>
      rw [createEntityIfMissing_of_failed c st e de msg h]
      simp

theorem createEntityIfMissing_error_iff_witness :
    (CreateEntityIfMissing.Run brokenDB () { ID := some "old".toList } { ID := some "new".toList }).1.err
        ≠ none ∧
    ((CreateEntityIfMissing.Run brokenDB () { ID := some "old".toList }
        { ID := some "new".toList }).1.err =
      (brokenDB.LoadEntity () (Entity.GetID { ID := some "new".toList })).1.2 ∧
    (CreateEntityIfMissing.Run brokenDB () { ID := some "old".toList }
        { ID := some "new".toList }).1.e = { ID := some "old".toList } ∧
    (CreateEntityIfMissing.Run brokenDB () { ID := some "old".toList }
        { ID := some "new".toList }).1.de = { ID := some "new".toList }) :=
  ⟨by decide,
    (createEntityIfMissing_error_iff brokenDB () { ID := some "old".toList }
      { ID := some "new".toList }).2 (by decide)⟩

/-- C9, as stated, fails on the code.  When `de` has no identifier set, the
entity the hook builds has none either, `proto.Merge` takes nothing from it, and
`e` keeps the identifier it had: afterwards `e`'s identifier is `old` and `de`'s
is not set. -/
theorem createEntityIfMissing_keeps_id_of_empty_delta :
    (listDB.LoadEntity [] (Entity.GetID {})).1.2 = some GoError.ErrUnknownEntity ∧
    (CreateEntityIfMissing.Run listDB [] { ID := some "old".toList } {}).1.err = none ∧
    (CreateEntityIfMissing.Run listDB [] { ID := some "old".toList } {}).1.e.ID
      = some "old".toList ∧
    (CreateEntityIfMissing.Run listDB [] { ID := some "old".toList } {}).1.de.ID = none ∧
    (CreateEntityIfMissing.Run listDB [] { ID := some "old".toList } {}).1.e.ID ≠
      (CreateEntityIfMissing.Run listDB [] { ID := some "old".toList } {}).1.de.ID ∧
    (CreateEntityIfMissing.Run listDB [] { ID := some "old".toList } {}).1.e.GetID ≠
      (CreateEntityIfMissing.Run listDB [] { ID := some "old".toList } {}).1.de.GetID := by
  decide

/-- C9, amended: whenever the load of `de`'s identifier reports an unknown
entity, the hook succeeds; afterwards `e`'s identifier is `de`'s when `de` has
one set and is what it was when `de` has none; every other field of `e` and all
of `de` are unchanged; and the storage is the one the single load left, so no
save and no delete has been issued. -/
theorem createEntityIfMissing_creates {σ : Type} (c : DB σ) (st : σ) (e de : Entity)
    (h : (c.LoadEntity st de.GetID).1.2 = some GoError.ErrUnknownEntity) :
    (CreateEntityIfMissing.Run c st e de).1.err = none ∧
    (de.ID ≠ none → (CreateEntityIfMissing.Run c st e de).1.e.ID = de.ID) ∧
    (de.ID = none → (CreateEntityIfMissing.Run c st e de).1.e.ID = e.ID) ∧
    (CreateEntityIfMissing.Run c st e de).1.e.Number = e.Number ∧
    (CreateEntityIfMissing.Run c st e de).1.e.Secret = e.Secret ∧
    (CreateEntityIfMissing.Run c st e de).1.e.Meta = e.Meta ∧
    (CreateEntityIfMissing.Run c st e de).1.de = de ∧
    (CreateEntityIfMissing.Run c st e de).2 = (c.LoadEntity st de.GetID).2 := by
  rw [createEntityIfMissing_of_unknown c st e de h]
  refine ⟨rfl, ?_, ?_, rfl, rfl, rfl, rfl, rfl⟩
  · intro hid
    cases hd : de.ID with
    | none => exact absurd hd hid
    | some i => simp [protoMerge, mergeField, hd]
  · intro hid
    simp [protoMerge, mergeField, hid]

theorem createEntityIfMissing_creates_witness :
    (listDB.LoadEntity [{ ID := some "root".toList }]
        (Entity.GetID { ID := some "new".toList, Secret := some "s".toList })).1.2 =
      some GoError.ErrUnknownEntity ∧
    ((CreateEntityIfMissing.Run listDB [{ ID := some "root".toList }]
        { Number := some 7 } { ID := some "new".toList, Secret := some "s".toList }).1.err =
      none ∧
    ((Entity.ID { ID := some "new".toList, Secret := some "s".toList }) ≠ none →
      (CreateEntityIfMissing.Run listDB [{ ID := some "root".toList }]
        { Number := some 7 } { ID := some "new".toList, Secret := some "s".toList }).1.e.ID =
        Entity.ID { ID := some "new".toList, Secret := some "s".toList }) ∧
    ((Entity.ID { ID := some "new".toList, Secret := some "s".toList }) = none →
      (CreateEntityIfMissing.Run listDB [{ ID := some "root".toList }]
        { Number := some 7 } { ID := some "new".toList, Secret := some "s".toList }).1.e.ID =
        Entity.ID { Number := some 7 }) ∧
    (CreateEntityIfMissing.Run listDB [{ ID := some "root".toList }]
        { Number := some 7 } { ID := some "new".toList, Secret := some "s".toList }).1.e.Number =
      Entity.Number { Number := some 7 } ∧
    (CreateEntityIfMissing.Run listDB [{ ID := some "root".toList }]
        { Number := some 7 } { ID := some "new".toList, Secret := some "s".toList }).1.e.Secret =
      Entity.Secret { Number := some 7 } ∧
    (CreateEntityIfMissing.Run listDB [{ ID := some "root".toList }]
        { Number := some 7 } { ID := some "new".toList, Secret := some "s".toList }).1.e.Meta =
      Entity.Meta { Number := some 7 } ∧
    (CreateEntityIfMissing.Run listDB [{ ID := some "root".toList }]
        { Number := some 7 } { ID := some "new".toList, Secret := some "s".toList }).1.de =
      { ID := some "new".toList, Secret := some "s".toList } ∧
    (CreateEntityIfMissing.Run listDB [{ ID := some "root".toList }]
        { Number := some 7 } { ID := some "new".toList, Secret := some "s".toList }).2 =
      (listDB.LoadEntity [{ ID := some "root".toList }]
        (Entity.GetID { ID := some "new".toList, Secret := some "s".toList })).2) :=
  ⟨by decide,
    createEntityIfMissing_creates listDB [{ ID := some "root".toList }]
      { Number := some 7 } { ID := some "new".toList, Secret := some "s".toList } (by decide)⟩

/-! ## The hook `validate-entity-secret` -/

/-- C10: `ValidateEntitySecret.Run(e, de)` returns exactly what `VerifySecret`
returns for `de`'s secret as the candidate and `e`'s secret as the stored copy,
a secret that is not set read as the empty string; it succeeds exactly when the
verification does, and leaves `e` and `de` as they were. -/
theorem validateEntitySecret_is_verifySecret
    (VerifySecret : GoString → GoString → Option GoError) (e de : Entity) :
    (ValidateEntitySecret.Run VerifySecret e de).err =
      VerifySecret (de.Secret.getD []) (e.Secret.getD []) ∧
    ((ValidateEntitySecret.Run VerifySecret e de).err = none ↔
      VerifySecret (de.Secret.getD []) (e.Secret.getD []) = none) ∧
    (ValidateEntitySecret.Run VerifySecret e de).e = e ∧
    (ValidateEntitySecret.Run VerifySecret e de).de = de :=
  ⟨rfl, Iff.rfl, rfl, rfl⟩


/-! ## `DedupStringSlice` drops the empty string -/

/-- C15, as stated, fails on the code: the empty string is an element of the
input and is not an element of what `DedupStringSlice` returns. -/
theorem dedupStringSlice_loses_empty :
    ([] : GoString) ∈ ["a".toList, "".toList, "a".toList] ∧
    DedupStringSlice RangeOrder.insertion ["a".toList, "".toList, "a".toList] = ["a".toList] ∧
    ([] : GoString) ∉ DedupStringSlice RangeOrder.insertion ["a".toList, "".toList, "a".toList] := by
  decide

/-- C15, amended: for every list and every order the map is ranged over,
`DedupStringSlice` returns a list with no repeated element whose elements are
exactly the non-empty strings of the input. -/
theorem dedupStringSlice_nonempty_set (ord : RangeOrder) (list : List GoString) :
    (DedupStringSlice ord list).Nodup ∧
    (∀ x, x ∈ DedupStringSlice ord list ↔ x ∈ list ∧ x ≠ []) :=
  ⟨DedupStringSlice_nodup ord list, mem_DedupStringSlice ord list⟩

/-! ## READ and the caller's slice -/

theorem read_slice_of_ne_star (ord : RangeOrder) (slice : List GoString) (key value : GoString)
    (hk : key ≠ "*".toList) :
    (PatchKeyValueSlice ord slice "READ".toList key value).slice = slice := by
  have h₁ : ¬ ("READ".toList = "UPSERT".toList) := by decide
  have h₂ : ¬ ("READ".toList = "CLEARFUZZY".toList) := by decide
  have h₃ : ¬ ("READ".toList = "CLEAREXACT".toList) := by decide
  simp only [PatchKeyValueSlice, ToUpper_READ, h₁, h₂, h₃, hk, if_false, if_true]

/-- C16 on the code: READ with the key `*` sorts the caller's slice in place, so
after the call the caller's `[b:1, a:1]` reads `[a:1, b:1]`.  With every other
key the caller's slice is left as it was. -/
theorem read_star_sorts_callers_slice :
    (PatchKeyValueSlice RangeOrder.insertion ["b:1".toList, "a:1".toList]
      "READ".toList "*".toList []).slice = ["a:1".toList, "b:1".toList] ∧
    (PatchKeyValueSlice RangeOrder.insertion ["b:1".toList, "a:1".toList]
      "READ".toList "*".toList []).slice ≠ ["b:1".toList, "a:1".toList] ∧
    (∀ (ord : RangeOrder) (seq : List GoString) (key value : GoString),
      key ≠ "*".toList → (PatchKeyValueSlice ord seq "READ".toList key value).slice = seq) :=
  ⟨by decide, by decide, read_slice_of_ne_star⟩

/-! ## `PatchStringSlice` -/

theorem foldl_patchStep (patch : GoString) (insert matchExact : Bool) (inp : List GoString)
    (st : List GoString × Bool) :
    inp.foldl (patchStep patch insert matchExact) st =
      (st.1 ++ inp.filter (fun s => !(stringMatcher s patch matchExact && !insert)),
        st.2 || (insert && inp.any (fun s => stringMatcher s patch matchExact))) := by
  induction inp generalizing st with
  | nil => simp
  | cons s rest ih =>
    rw [List.foldl_cons, ih]
    cases hm : stringMatcher s patch matchExact <;> cases insert <;>
      simp [patchStep, hm]

theorem mem_patchList_remove (inp : List GoString) (patch : GoString) (matchExact : Bool)
    (x : GoString) :
    x ∈ patchList inp patch false matchExact ↔
      x ∈ inp ∧ stringMatcher x patch matchExact = false := by
  unfold patchList
  rw [foldl_patchStep]
  simp

theorem mem_patchList_insert (inp : List GoString) (patch : GoString) (matchExact : Bool)
    (x : GoString) :
    x ∈ patchList inp patch true matchExact ↔
      x ∈ inp ∨ (x = patch ∧ ∀ s ∈ inp, stringMatcher s patch matchExact = false) := by
  unfold patchList
  rw [foldl_patchStep]
  by_cases hany : inp.any (fun s => stringMatcher s patch matchExact) = true
  · obtain ⟨w, hw, hwm⟩ := List.any_eq_true.1 hany
    simp only [hany, Bool.not_false, Bool.and_false, Bool.not_false, List.filter_true,
      List.nil_append, Bool.false_or, Bool.and_self, Bool.not_true, Bool.false_and,
      Bool.false_eq_true, if_false]
    constructor
    · intro h
      exact Or.inl h
    · rintro (h | ⟨_, hall⟩)
      · exact h
      · rw [hall w hw] at hwm
        exact absurd hwm (by simp)
  · have hany' : inp.any (fun s => stringMatcher s patch matchExact) = false := by
      simpa using hany
    have hall : ∀ s ∈ inp, stringMatcher s patch matchExact = false := by
      intro s hs
      cases hm : stringMatcher s patch matchExact with
      | false => rfl
      | true => exact absurd (List.any_eq_true.2 ⟨s, hs, hm⟩) hany
    simp only [hany', Bool.not_false, Bool.and_false, List.filter_true, List.nil_append,
      Bool.false_or, Bool.and_true, Bool.not_true, Bool.and_self, if_true, List.mem_append,
      List.mem_singleton]
    constructor
    · rintro (h | h)
      · exact Or.inl h
      · exact Or.inr ⟨h, hall⟩
    · rintro (h | ⟨h, _⟩)
      · exact Or.inl h
      · exact Or.inr h

/-- C13: with exact matching and a non-empty patch, `PatchStringSlice` returns a
list without repeated elements; on insert its elements are the non-empty
elements of `in` and `patch`, on removal they are the non-empty elements of
`in` other than `patch`. -/
theorem patchStringSlice_exact (ord : RangeOrder) (inp : List GoString) (patch : GoString)
    (hp : patch ≠ []) :
    (PatchStringSlice ord inp patch true true).Nodup ∧
    (∀ x, x ∈ PatchStringSlice ord inp patch true true ↔ (x ∈ inp ∧ x ≠ []) ∨ x = patch) ∧
    (PatchStringSlice ord inp patch false true).Nodup ∧
    (∀ x, x ∈ PatchStringSlice ord inp patch false true ↔ x ∈ inp ∧ x ≠ [] ∧ x ≠ patch) := by
  refine ⟨DedupStringSlice_nodup _ _, ?_, DedupStringSlice_nodup _ _, ?_⟩
  · intro x
    unfold PatchStringSlice
    rw [mem_DedupStringSlice, mem_patchList_insert]
    constructor
    · rintro ⟨h | ⟨h, _⟩, hne⟩
      · exact Or.inl ⟨h, hne⟩
      · exact Or.inr h
    · rintro (⟨h, hne⟩ | h)
      · exact ⟨Or.inl h, hne⟩
      · by_cases hmem : patch ∈ inp
        · exact ⟨Or.inl (h ▸ hmem), h ▸ hp⟩
        · refine ⟨Or.inr ⟨h, ?_⟩, h ▸ hp⟩
          intro s hs
          have hsp : s ≠ patch := fun e => hmem (e ▸ hs)
          simp [stringMatcher, hsp]
  · intro x
    unfold PatchStringSlice
    rw [mem_DedupStringSlice, mem_patchList_remove]
    simp only [stringMatcher, if_true, decide_eq_false_iff_not]
    tauto

theorem patchStringSlice_exact_witness :
    "b".toList ≠ [] ∧
    ((PatchStringSlice RangeOrder.reversed ["a".toList, "".toList, "b".toList, "a".toList]
        "b".toList true true).Nodup ∧
    (∀ x, x ∈ PatchStringSlice RangeOrder.reversed
        ["a".toList, "".toList, "b".toList, "a".toList] "b".toList true true ↔
      (x ∈ ["a".toList, "".toList, "b".toList, "a".toList] ∧ x ≠ []) ∨ x = "b".toList) ∧
    (PatchStringSlice RangeOrder.reversed ["a".toList, "".toList, "b".toList, "a".toList]
        "b".toList false true).Nodup ∧
    (∀ x, x ∈ PatchStringSlice RangeOrder.reversed
        ["a".toList, "".toList, "b".toList, "a".toList] "b".toList false true ↔
      x ∈ ["a".toList, "".toList, "b".toList, "a".toList] ∧ x ≠ [] ∧ x ≠ "b".toList)) :=
  ⟨by decide,
    patchStringSlice_exact RangeOrder.reversed ["a".toList, "".toList, "b".toList, "a".toList]
      "b".toList (by decide)⟩


/-- `strings.Contains(s, substr)` holds exactly when `s` is `substr` with some
text before it and some text after it. -/
theorem contains_iff (s substr : GoString) :
    Contains s substr = true ↔ ∃ a b : GoString, s = a ++ substr ++ b := by
  induction s with
  | nil =>
    simp only [Contains, List.isEmpty_iff]
    constructor
    · rintro rfl
      exact ⟨[], [], rfl⟩
    · rintro ⟨a, b, h⟩
      have h' := congrArg List.length h
      simp only [List.length_nil, List.length_append] at h'
      exact List.length_eq_zero.1 (by omega)
  | cons c cs ih =>
    simp only [Contains, Bool.or_eq_true, List.isPrefixOf_iff_prefix, ih]
    constructor
    · rintro (⟨t, ht⟩ | ⟨a, b, h⟩)
      · exact ⟨[], t, by simpa using ht.symm⟩
      · exact ⟨c :: a, b, by simp [h]⟩
    · rintro ⟨a, b, h⟩
      cases a with
      | nil => exact Or.inl ⟨b, by simpa using h.symm⟩
      | cons a₀ a' =>
        simp only [List.cons_append, List.cons.injEq] at h
        exact Or.inr ⟨a', b, h.2⟩

/-- C14 on the code.  Removal with substring matching does what the claim says:
it keeps exactly the non-empty elements that do not contain `patch`.  Insertion
does not: `foobar` contains `foo`, so the loop takes `foo` for already present,
and the list returned for `[foobar]` does not hold `foo`. -/
theorem patchStringSlice_substring :
    (∀ (ord : RangeOrder) (inp : List GoString) (patch x : GoString),
      x ∈ PatchStringSlice ord inp patch false false ↔
        x ∈ inp ∧ x ≠ [] ∧ ¬ ∃ a b : GoString, x = a ++ patch ++ b) ∧
    "foo".toList ≠ [] ∧
    PatchStringSlice RangeOrder.insertion ["foobar".toList] "foo".toList true false =
      ["foobar".toList] ∧
    (∀ ord : RangeOrder,
      "foo".toList ∉ PatchStringSlice ord ["foobar".toList] "foo".toList true false) := by
  refine ⟨?_, by decide, by decide, ?_⟩
  · intro ord inp patch x
    unfold PatchStringSlice
    rw [mem_DedupStringSlice, mem_patchList_remove]
    simp only [stringMatcher, Bool.false_eq_true, if_false, ← contains_iff]
    constructor
    · rintro ⟨⟨h, hc⟩, hne⟩
      exact ⟨h, hne, by simp [hc]⟩
    · rintro ⟨h, hne, hc⟩
      exact ⟨⟨h, by simpa using hc⟩, hne⟩
  · intro ord hmem
    unfold PatchStringSlice at hmem
    rw [mem_DedupStringSlice] at hmem
    exact absurd hmem.1 (by decide)

/-! ## The test helper `slicesAreEqual` -/

theorem slicesAreEqualLoop_iff (left right : List GoString)
    (hlen : left.length = right.length) :
    slicesAreEqualLoop left right = true ↔ left = right := by
  induction left generalizing right with
  | nil =>
    cases right with
    | nil => simp [slicesAreEqualLoop]
    | cons r rs => simp at hlen
  | cons v vs ih =>
    cases right with
    | nil => simp at hlen
    | cons r rs =>
      have hlen' : vs.length = rs.length := by simpa using hlen
      by_cases hvr : v = r
      · simp [slicesAreEqualLoop, hvr, ih rs hlen']
      · simp [slicesAreEqualLoop, hvr]

theorem sortStrings_eq_iff_perm (l r : List GoString) :
    sortStrings l = sortStrings r ↔ l.Perm r := by
  constructor
  · intro h
    exact ((sortStrings_perm l).symm.trans (h ▸ List.Perm.refl _)).trans (sortStrings_perm r)
  · exact sortStrings_eq_of_perm

/-- C19: `slicesAreEqual(left, right)` returns true exactly when the two lists
have the same length and one is a rearrangement of the other; `[foo,bar,baz]`
against `[foo,baz,bar]` is true, against `[foo,bar]` is false. -/
theorem slicesAreEqual_iff_perm (left right : List GoString) :
    ((slicesAreEqual left right).ret = true ↔
      left.length = right.length ∧ left.Perm right) ∧
    (slicesAreEqual ["foo".toList, "bar".toList, "baz".toList]
      ["foo".toList, "baz".toList, "bar".toList]).ret = true ∧
    (slicesAreEqual ["foo".toList, "bar".toList, "baz".toList]
      ["foo".toList, "bar".toList]).ret = false := by
  refine ⟨?_, by decide, by decide⟩
  unfold slicesAreEqual
  by_cases hlen : left.length = right.length
  · have hlen' : (sortStrings left).length = (sortStrings right).length := by
      rw [(sortStrings_perm left).length_eq, (sortStrings_perm right).length_eq, hlen]
    simp only [hlen, ne_eq, not_true_eq_false, if_false, true_and]
    rw [slicesAreEqualLoop_iff _ _ hlen', sortStrings_eq_iff_perm]
  · simp only [ne_eq, hlen, not_false_eq_true, if_true, false_and]
    simp

/-! ## `kvArgs` -/

theorem PatchKeyValueSlice_congr_mode (ord : RangeOrder) (slice : List GoString)
    (m₁ m₂ key value : GoString) (h : ToUpper m₁ = ToUpper m₂) :
    PatchKeyValueSlice ord slice m₁ key value = PatchKeyValueSlice ord slice m₂ key value := by
  simp only [PatchKeyValueSlice, h]

theorem kvArgs_eq_none_iff (args : List GoString) :
    kvArgs args = none ↔
      3 ≤ args.length ∧
        (ToUpper (args.getD 1 []) ∈
            ["CLEARFUZZY".toList, "CLEAREXACT".toList, "READ".toList] ∨
          (ToUpper (args.getD 1 []) = "UPSERT".toList ∧ args.length = 4)) := by
  unfold kvArgs
  generalize ToUpper (args.getD 1 []) = action
  have hcf : ¬ ("CLEARFUZZY".toList = "UPSERT".toList) := by decide
  have hce : ¬ ("CLEAREXACT".toList = "UPSERT".toList) := by decide
  have hr : ¬ ("READ".toList = "UPSERT".toList) := by decide
  simp only [List.mem_cons, List.mem_singleton, List.not_mem_nil, or_false]
  split_ifs with hlen hbad hu h₁ h₂ h₃
  · constructor
    · intro h
      exact absurd h (by simp)
    · rintro ⟨h, _⟩
      omega
  · constructor
    · intro h
      exact absurd h (by simp)
    · rintro ⟨_, (h | h | h) | ⟨_, h⟩⟩
      · exact absurd (h.symm.trans hbad.1) hcf
      · exact absurd (h.symm.trans hbad.1) hce
      · exact absurd (h.symm.trans hbad.1) hr
      · exact absurd h hbad.2
  · refine ⟨fun _ => ⟨by omega, Or.inr ⟨hu, ?_⟩⟩, fun _ => rfl⟩
    by_contra h4
    exact hbad ⟨hu, h4⟩
  · exact ⟨fun _ => ⟨by omega, Or.inl (Or.inl h₁)⟩, fun _ => rfl⟩
  · exact ⟨fun _ => ⟨by omega, Or.inl (Or.inr (Or.inl h₂))⟩, fun _ => rfl⟩
  · exact ⟨fun _ => ⟨by omega, Or.inl (Or.inr (Or.inr h₃))⟩, fun _ => rfl⟩
  · constructor
    · intro h
      exact absurd h (by simp)
    · rintro ⟨_, (h | h | h) | ⟨h, _⟩⟩
      · exact absurd h h₁
      · exact absurd h h₂
      · exact absurd h h₃
      · exact absurd h hu

/-- C18: `kvArgs` returns no error exactly when there are at least 3 arguments
and the second, upper-cased, is CLEARFUZZY, CLEAREXACT or READ, or is UPSERT
with exactly 4 arguments.  An action it accepts is, upper-cased, one of the four
modes, and `PatchKeyValueSlice` called with it does what it does for that mode's
name: the fallthrough for an unrecognised mode is not reached. -/
theorem kvArgs_accepts_known_modes (args : List GoString) :
    (kvArgs args = none ↔
      3 ≤ args.length ∧
        (ToUpper (args.getD 1 []) ∈
            ["CLEARFUZZY".toList, "CLEAREXACT".toList, "READ".toList] ∨
          (ToUpper (args.getD 1 []) = "UPSERT".toList ∧ args.length = 4))) ∧
    (kvArgs args = none →
      ∃ mode ∈ ["UPSERT".toList, "CLEARFUZZY".toList, "CLEAREXACT".toList, "READ".toList],
        ToUpper (args.getD 1 []) = mode ∧
        ∀ (ord : RangeOrder) (slice : List GoString) (key value : GoString),
          PatchKeyValueSlice ord slice (args.getD 1 []) key value =
            PatchKeyValueSlice ord slice mode key value) := by
  refine ⟨kvArgs_eq_none_iff args, ?_⟩
  intro h
  obtain ⟨_, hmode⟩ := (kvArgs_eq_none_iff args).1 h
  simp only [List.mem_cons, List.mem_singleton, List.not_mem_nil, or_false] at hmode
  rcases hmode with (h₁ | h₂ | h₃) | ⟨hu, _⟩
  · exact ⟨_, by simp, h₁, fun ord slice key value =>
      PatchKeyValueSlice_congr_mode ord slice _ _ key value (h₁.trans ToUpper_CLEARFUZZY.symm)⟩
  · exact ⟨_, by simp, h₂, fun ord slice key value =>
      PatchKeyValueSlice_congr_mode ord slice _ _ key value (h₂.trans ToUpper_CLEAREXACT.symm)⟩
  · exact ⟨_, by simp, h₃, fun ord slice key value =>
      PatchKeyValueSlice_congr_mode ord slice _ _ key value (h₃.trans ToUpper_READ.symm)⟩
  · exact ⟨_, by simp, hu, fun ord slice key value =>
      PatchKeyValueSlice_congr_mode ord slice _ _ key value (hu.trans ToUpper_UPSERT.symm)⟩

theorem kvArgs_accepts_known_modes_witness :
    kvArgs ["ssh".toList, "upsert".toList, "k".toList, "v".toList] = none ∧
    ∃ mode ∈ ["UPSERT".toList, "CLEARFUZZY".toList, "CLEAREXACT".toList, "READ".toList],
      ToUpper (["ssh".toList, "upsert".toList, "k".toList, "v".toList].getD 1 []) = mode ∧
      ∀ (ord : RangeOrder) (slice : List GoString) (key value : GoString),
        PatchKeyValueSlice ord slice
            (["ssh".toList, "upsert".toList, "k".toList, "v".toList].getD 1 []) key value =
          PatchKeyValueSlice ord slice mode key value :=
  ⟨by decide,
    (kvArgs_accepts_known_modes ["ssh".toList, "upsert".toList, "k".toList, "v".toList]).2
      (by decide)⟩


/-! ## `token` -/

/-- C17 on the code.  The cached token `tok` is not empty and comes without an
error; it is valid when the second case of the `switch` validates it and has
expired when the third case validates it again.  No case applies, and `token`
returns the empty string; the process is not ended.  The same happens when the
cache hands out a token together with an error other than `ErrNoCachedToken` and
the token validates. -/
theorem token_returns_empty :
    ((expiringEnv.GetToken 0 expiringEnv.entity).1 = ("tok".toList, none) ∧
      (expiringEnv.Validate 0 "tok".toList).1 = none ∧
      (expiringEnv.Validate 1 "tok".toList).1 ≠ none ∧
      (token expiringEnv 0).1 = Ending.returned []) ∧
    ((staleCacheEnv.GetToken () staleCacheEnv.entity).1 =
        ("tok".toList, some (CliError.other "cache unreadable".toList)) ∧
      (staleCacheEnv.Validate () "tok".toList).1 = none ∧
      (token staleCacheEnv ()).1 = Ending.returned []) := by
  decide

/-! ## The client -/

/-- C11: for a capability name the table does not hold, `ManageCapabilities`
returns no result and the error `UnknownCapability`, whatever the other
arguments are, and the server is in the state it was in: no request has been
made. -/
theorem manageCapabilities_unknown_capability {σ : Type} (pb : ProtocolTables)
    (n : netAuthClient σ) (st : σ) (t e g c m : GoString)
    (hc : pb.Capability_value c = none) :
    netAuthClient.ManageCapabilities pb n st t e g c m =
      ((none, some ClientError.UnknownCapability), st) := by
  simp only [netAuthClient.ManageCapabilities, hc]

theorem manageCapabilities_unknown_capability_witness :
    exampleTables.Capability_value "UNKNOWN".toList = none ∧
    netAuthClient.ManageCapabilities exampleTables recordingClient {}
        "token".toList "entity1".toList [] "UNKNOWN".toList "ADD".toList =
      ((none, some ClientError.UnknownCapability), {}) :=
  ⟨by decide,
    manageCapabilities_unknown_capability exampleTables recordingClient {}
      "token".toList "entity1".toList [] "UNKNOWN".toList "ADD".toList (by decide)⟩

/-- C12 on the code.  `ModifyGroupExpansions` reads the mode from the table
without asking whether the name is there, so for every mode string it makes the
nesting request, with the mode 0 for a name the table does not hold, and leaves
the server in the state that request left.  For the mode `BOGUS` the recording
server has received one nesting request and the call returns its answer with no
error. -/
theorem modifyGroupExpansions_sends_unknown_mode :
    (∀ (σ : Type) (pb : ProtocolTables) (n : netAuthClient σ) (st : σ) (t p c m : GoString),
      (netAuthClient.ModifyGroupExpansions pb n st t p c m).2 =
        (n.c.ModifyGroupNesting st
          { Info := some { ID := n.clientID, Service := n.serviceID }
            AuthToken := some t
            ParentGroup := some { Name := some p }
            ChildGroup := some { Name := some c }
            Mode := some ((pb.ExpansionMode_value m).getD 0) }).2) ∧
    exampleTables.ExpansionMode_value "BOGUS".toList = none ∧
    netAuthClient.ModifyGroupExpansions exampleTables recordingClient {}
        "token".toList "parent".toList "child".toList "BOGUS".toList =
      ((some { Success := some true }, none),
        { nesting :=
            [{ Info := some { ID := some "host".toList, Service := some "netauth".toList }
               AuthToken := some "token".toList
               ParentGroup := some { Name := some "parent".toList }
               ChildGroup := some { Name := some "child".toList }
               Mode := some 0 }] }) := by
  refine ⟨?_, by decide, by decide⟩
  intro σ pb n st t p c m
  unfold netAuthClient.ModifyGroupExpansions
  simp only
  split_ifs <;> rfl

end NetAuth
